import Mathlib

/-!
# Verification of a file-resident doubly-linked list (B+-tree leaf)

Shallow embedding of `src/main.cpp`: a binary file holds a header slot and
`tam` node slots.  The active records form a doubly-linked chain rooted at
`first`/`last`; unused slots form a singly-linked free chain rooted at `free`.
Cursors are 1-based integers; `-1` is the null/sentinel value.

The file state is modelled as a header plus a list of node slots
(`slots.get (c-1)` is the slot at cursor `c`).  Each C++ function becomes a
pure state transformer; the unbounded `while` loops over chain cursors become
fuel-bounded recursions, with fuel `slots.length + 1`, which is enough for
every traversal of a well-formed chain (a chain never repeats a cursor and
has at most `slots.length` elements).
-/

namespace BPlusLeaf

/-- The record payload stored at a node: `struct dados` of the source
(`chave` key plus fixed-width `nome`, modelled as a `String`). -/
structure Dados where
  chave : Int
  nome : String
deriving DecidableEq, Repr

/-- One node slot: the `lista` arm of `union celula` in the source
(`next`/`prev` cursors plus the record). -/
structure Node where
  next : Int
  prev : Int
  reg : Dados
deriving DecidableEq, Repr

/-- The header slot: the `cabecalho` arm of `union celula` in the source. -/
structure Header where
  quant : Int
  first : Int
  last : Int
  free : Int
  tam : Int
deriving DecidableEq, Repr

/-- The whole binary file: the header plus the node slots.  Cursor `c`
(1-based) lives at list index `c-1`. -/
structure FS where
  cab : Header
  slots : List Node
deriving DecidableEq, Repr

/-- The node a read of an unwritten slot would observe; the concrete value is
irrelevant, every traversal proved about stays inside `1..slots.length`. -/
def blankNode : Node := ⟨-1, -1, ⟨-1, ""⟩⟩

/-- Read the slot at cursor `c` (the `seekg`/`read` pair of the source). -/
def readSlot (s : FS) (c : Int) : Node :=
  s.slots.getD (c - 1).toNat blankNode

/-- Write the slot at cursor `c` (the `seekp`/`write` pair of the source). -/
def writeSlot (s : FS) (c : Int) (nd : Node) : FS :=
  { s with slots := s.slots.set (c - 1).toNat nd }

/-- `inicializar(arq, n)`: header `{quant 0, first -1, last -1, free 1, tam n}`,
then every cursor `i ∈ 1..n` is written as a free node whose `next` is `i+1`
(`-1` for the last) and whose key is the free sentinel `-1`.  The source
leaves `nome` uninitialised; the model fixes it to `""`. -/
def inicializar (n : Int) : FS :=
  { cab := { quant := 0, first := -1, last := -1, free := 1, tam := n },
    slots := (List.range n.toNat).map fun (i : Nat) =>
      { next := if (i : Int) + 1 = n then -1 else (i : Int) + 2,
        prev := -1,
        reg := { chave := -1, nome := "" } } }

/-- The scan loop of `pesquisa`: follow `next` from `atual` until the key
matches (returning the cursor it was found at) or the cursor is `-1`. -/
def pesquisaAux (s : FS) (chave : Int) : Nat → Int → Option Int
  | 0, _ => none
  | fuel + 1, atual =>
    if atual = -1 then none
    else if (readSlot s atual).reg.chave = chave then some atual
    else pesquisaAux s chave fuel (readSlot s atual).next

/-- `pesquisa(arq, chave, resultado)`: linear scan of the active chain from
`first`; `some c` means found at cursor `c` (the source also returns the node,
recovered here as `readSlot s c`). -/
def pesquisa (s : FS) (chave : Int) : Option Int :=
  pesquisaAux s chave (s.slots.length + 1) s.cab.first

/-- `inserir(arq, d)`: append at the tail.  Aborts (state unchanged) on a
duplicate key or a full file; otherwise pops the free-chain head, stamps the
record there with `next = -1`, `prev = last`, links the old tail (if any)
forward to it, and commits the header. -/
def inserir (s : FS) (d : Dados) : FS :=
  if (pesquisa s d.chave).isSome then s
  else if s.cab.free = -1 then s
  else
    let freeC := s.cab.free
    let novoFree := (readSlot s freeC).next
    let l : Node := { next := -1, prev := s.cab.last, reg := d }
    let s1 := if s.cab.last ≠ -1 then
        writeSlot s s.cab.last { readSlot s s.cab.last with next := freeC }
      else s
    let s2 := writeSlot s1 freeC l
    { s2 with cab :=
      { s.cab with
        first := if s.cab.first = -1 then freeC else s.cab.first,
        last := freeC,
        free := novoFree,
        quant := s.cab.quant + 1 } }

/-- The position-search loop of `inserirOrdenado`: walk from `atual` keeping
the previous cursor, stopping at the first node whose key is strictly greater
than `chave` or at the end; returns `(anterior_pos, atual)`. -/
def buscaPos (s : FS) (chave : Int) : Nat → Int → Int → Int × Int
  | 0, anterior, atual => (anterior, atual)
  | fuel + 1, anterior, atual =>
    if atual = -1 then (anterior, atual)
    else if (readSlot s atual).reg.chave > chave then (anterior, atual)
    else buscaPos s chave fuel atual (readSlot s atual).next

/-- `inserirOrdenado(arq, d)`: insert keeping ascending key order.  Aborts on
duplicate key or full file; otherwise pops the free-chain head and splices it
in one of four cases: empty list, before the head, at the tail (`atual = -1`),
or strictly between `anterior_pos` and `atual`. -/
def inserirOrdenado (s : FS) (d : Dados) : FS :=
  if (pesquisa s d.chave).isSome then s
  else if s.cab.free = -1 then s
  else
    let freeC := s.cab.free
    let novoFree := (readSlot s freeC).next
    if s.cab.first = -1 then
      let novo : Node := { next := -1, prev := -1, reg := d }
      let s2 := writeSlot s freeC novo
      { s2 with cab :=
        { s.cab with first := freeC, last := freeC, free := novoFree,
                     quant := s.cab.quant + 1 } }
    else
      let p := buscaPos s d.chave (s.slots.length + 1) (-1) s.cab.first
      if p.2 = s.cab.first then
        let novo : Node := { next := s.cab.first, prev := -1, reg := d }
        let s1 := writeSlot s s.cab.first
          { readSlot s s.cab.first with prev := freeC }
        let s2 := writeSlot s1 freeC novo
        { s2 with cab :=
          { s.cab with first := freeC, free := novoFree,
                       quant := s.cab.quant + 1 } }
      else if p.2 = -1 then
        let novo : Node := { next := -1, prev := s.cab.last, reg := d }
        let s1 := writeSlot s s.cab.last
          { readSlot s s.cab.last with next := freeC }
        let s2 := writeSlot s1 freeC novo
        { s2 with cab :=
          { s.cab with last := freeC, free := novoFree,
                       quant := s.cab.quant + 1 } }
      else
        let novo : Node := { next := p.2, prev := p.1, reg := d }
        let s1 := writeSlot s p.1 { readSlot s p.1 with next := freeC }
        let s2 := writeSlot s1 p.2 { readSlot s1 p.2 with prev := freeC }
        let s3 := writeSlot s2 freeC novo
        { s3 with cab :=
          { s.cab with free := novoFree, quant := s.cab.quant + 1 } }

/-- The body `remover` runs once the node carrying the key is found at cursor
`atual`: unsplice it (updating neighbour links or `first`/`last`), overwrite it
as a free node pushed on the free-chain head, decrement `quant`, and force
`first = last = -1` when the list became empty. -/
def removerAt (s : FS) (atual : Int) : FS :=
  let l := readSlot s atual
  let s1 := if l.prev ≠ -1 then
      writeSlot s l.prev { readSlot s l.prev with next := l.next }
    else s
  let first1 := if l.prev ≠ -1 then s.cab.first else l.next
  let s2 := if l.next ≠ -1 then
      writeSlot s1 l.next { readSlot s1 l.next with prev := l.prev }
    else s1
  let last1 := if l.next ≠ -1 then s.cab.last else l.prev
  let s3 := writeSlot s2 atual
    { next := s.cab.free, prev := -1, reg := { chave := -1, nome := "[LIVRE]" } }
  let quant1 := s.cab.quant - 1
  { s3 with cab :=
    { s.cab with
      first := if quant1 = 0 then -1 else first1,
      last := if quant1 = 0 then -1 else last1,
      free := atual,
      quant := quant1 } }

/-- The search loop of `remover`: follow `next` until the key matches (then
rewrite the file via `removerAt`) or the chain ends (`none`, no write at all).
-/
def removerLoop (s : FS) (chave : Int) : Nat → Int → Option FS
  | 0, _ => none
  | fuel + 1, atual =>
    if atual = -1 then none
    else if (readSlot s atual).reg.chave = chave then some (removerAt s atual)
    else removerLoop s chave fuel (readSlot s atual).next

/-- `remover(arq, chave)`: `some s'` is a successful removal (the source
returns `true`), `none` means the key was absent and nothing was written. -/
def remover (s : FS) (chave : Int) : Option FS :=
  removerLoop s chave (s.slots.length + 1) s.cab.first

/-- `remover` as the caller sees it: the resulting file state plus the
boolean return value (`false` leaves the file untouched). -/
def removerRun (s : FS) (chave : Int) : FS × Bool :=
  match remover s chave with
  | some s' => (s', true)
  | none => (s, false)

/-! ## Chains

`nextChain s c l e` says: starting at cursor `c` and following `next`
pointers, one visits exactly the cursors of `l` in order and is then left at
cursor `e` (so `e = -1` means the chain terminates).  `prevChain` is the same
for `prev` pointers. -/

/-- Forward chain: from cursor `c` the `next` fields visit `l` then stop at
`e`. -/
def nextChain (s : FS) : Int → List Int → Int → Prop
  | c, [], e => c = e
  | c, x :: xs, e => c = x ∧ nextChain s (readSlot s x).next xs e

/-- Backward chain: from cursor `c` the `prev` fields visit `l` then stop at
`e`. -/
def prevChain (s : FS) : Int → List Int → Int → Prop
  | c, [], e => c = e
  | c, x :: xs, e => c = x ∧ prevChain s (readSlot s x).prev xs e

/-- All node cursors of the file, in physical order: `1..slots.length`. -/
def allCursors (s : FS) : List Int :=
  (List.range s.slots.length).map fun (i : Nat) => (i : Int) + 1

/-- The keys carried by the cursors of `l` in state `s`. -/
def chainKeys (s : FS) (l : List Int) : List Int :=
  l.map fun c => (readSlot s c).reg.chave

/-- Structural well-formedness of a file state, witnessed by the active chain
`act` and the free chain `fre`:
the header's `tam` equals the slot count; `act ++ fre` is a permutation of
all cursors; `quant` counts the active chain; `first`/`next` walk `act`
forward to `-1`, `last`/`prev` walk it backward to `-1`; `free`/`next` walk
`fre` to `-1`; every free slot carries the sentinel key `-1`. -/
structure ChainInv (s : FS) (act fre : List Int) : Prop where
  tam_eq : s.cab.tam = (s.slots.length : Int)
  perm : (act ++ fre).Perm (allCursors s)
  quant_eq : s.cab.quant = (act.length : Int)
  fwd : nextChain s s.cab.first act (-1)
  bwd : prevChain s s.cab.last act.reverse (-1)
  fre_ch : nextChain s s.cab.free fre (-1)
  fre_keys : ∀ c ∈ fre, (readSlot s c).reg.chave = -1

/-- A state is well-formed when some pair of chains witnesses `ChainInv`. -/
def Inv (s : FS) : Prop := ∃ act fre, ChainInv s act fre

/-- States reachable from `inicializar n` (capacity at least 1) by any
sequence of `inserir`, `inserirOrdenado` and `remover` calls.  Failed inserts
return the state unchanged, and a failed `remover` does not change the state,
so failing calls are covered as well. -/
inductive Reachable : FS → Prop
  | init (n : Int) : 1 ≤ n → Reachable (inicializar n)
  | ins {s : FS} (d : Dados) : Reachable s → Reachable (inserir s d)
  | insOrd {s : FS} (d : Dados) : Reachable s → Reachable (inserirOrdenado s d)
  | rem {s s' : FS} (k : Int) : Reachable s → remover s k = some s' →
      Reachable s'

/-- States reachable when every insertion goes through `inserirOrdenado`
(deletions allowed): the precondition of the ordering law. -/
inductive ReachableSorted : FS → Prop
  | init (n : Int) : 1 ≤ n → ReachableSorted (inicializar n)
  | insOrd {s : FS} (d : Dados) : ReachableSorted s →
      ReachableSorted (inserirOrdenado s d)
  | rem {s s' : FS} (k : Int) : ReachableSorted s → remover s k = some s' →
      ReachableSorted s'

/-- States reachable when no caller ever inserts the sentinel key `-1`:
the precondition under which "key `-1` iff free" holds. -/
inductive ReachableNZ : FS → Prop
  | init (n : Int) : 1 ≤ n → ReachableNZ (inicializar n)
  | ins {s : FS} (d : Dados) : d.chave ≠ -1 → ReachableNZ s →
      ReachableNZ (inserir s d)
  | insOrd {s : FS} (d : Dados) : d.chave ≠ -1 → ReachableNZ s →
      ReachableNZ (inserirOrdenado s d)
  | rem {s s' : FS} (k : Int) : ReachableNZ s → remover s k = some s' →
      ReachableNZ s'

/-! ## Basic slot lemmas -/

theorem writeSlot_cab (s : FS) (c : Int) (nd : Node) :
    (writeSlot s c nd).cab = s.cab := rfl

theorem writeSlot_length (s : FS) (c : Int) (nd : Node) :
    (writeSlot s c nd).slots.length = s.slots.length := by
  simp [writeSlot]

theorem readSlot_irrel_cab (h : Header) (sl : List Node) (h' : Header)
    (c : Int) : readSlot ⟨h, sl⟩ c = readSlot ⟨h', sl⟩ c := rfl

theorem readSlot_writeSlot_self {s : FS} {c : Int} (nd : Node)
    (h1 : 1 ≤ c) (h2 : c ≤ (s.slots.length : Int)) :
    readSlot (writeSlot s c nd) c = nd := by
  have hlt : (c - 1).toNat < s.slots.length := by omega
  unfold readSlot writeSlot
  rw [List.getD_eq_getElem?_getD, List.getElem?_set_self (by simpa using hlt)]
  rfl

theorem readSlot_writeSlot_ne {s : FS} {c c' : Int} (nd : Node)
    (h1 : 1 ≤ c) (h1' : 1 ≤ c') (hne : c' ≠ c) :
    readSlot (writeSlot s c nd) c' = readSlot s c' := by
  have hix : (c - 1).toNat ≠ (c' - 1).toNat := by omega
  unfold readSlot writeSlot
  rw [List.getD_eq_getElem?_getD, List.getElem?_set_ne hix,
    List.getD_eq_getElem?_getD]

/-! ## Chain lemmas -/

theorem nextChain_nil {s : FS} {c e : Int} : nextChain s c [] e ↔ c = e :=
  Iff.rfl

theorem nextChain_cons {s : FS} {c x e : Int} {xs : List Int} :
    nextChain s c (x :: xs) e ↔
      c = x ∧ nextChain s (readSlot s x).next xs e :=
  Iff.rfl

theorem nextChain_head {s : FS} {c e : Int} {l : List Int}
    (h : nextChain s c l e) : c = l.headD e := by
  cases l with
  | nil => exact h
  | cons x xs => exact h.1

theorem nextChain_append {s : FS} {c e : Int} {l1 l2 : List Int} :
    nextChain s c (l1 ++ l2) e ↔
      ∃ m, nextChain s c l1 m ∧ nextChain s m l2 e := by
  induction l1 generalizing c with
  | nil =>
    simp only [List.nil_append, nextChain_nil]
    constructor
    · intro h; exact ⟨c, rfl, h⟩
    · rintro ⟨m, rfl, h⟩; exact h
  | cons x xs ih =>
    simp only [List.cons_append, nextChain_cons, ih, and_assoc]
    constructor
    · rintro ⟨rfl, m, h1, h2⟩; exact ⟨m, rfl, h1, h2⟩
    · rintro ⟨m, rfl, h1, h2⟩; exact ⟨rfl, m, h1, h2⟩

theorem nextChain_singleton {s : FS} {c a e : Int} :
    nextChain s c [a] e ↔ c = a ∧ (readSlot s a).next = e := by
  simp [nextChain_cons, nextChain_nil]

theorem nextChain_snoc {s : FS} {c a e : Int} {l : List Int} :
    nextChain s c (l ++ [a]) e ↔
      nextChain s c l a ∧ (readSlot s a).next = e := by
  simp only [nextChain_append, nextChain_singleton]
  constructor
  · rintro ⟨m, h1, rfl, h2⟩; exact ⟨h1, h2⟩
  · rintro ⟨h1, h2⟩; exact ⟨a, h1, rfl, h2⟩

theorem nextChain_congr {s s' : FS} {c e : Int} {l : List Int}
    (hr : ∀ x ∈ l, (readSlot s' x).next = (readSlot s x).next)
    (h : nextChain s c l e) : nextChain s' c l e := by
  induction l generalizing c with
  | nil => exact h
  | cons x xs ih =>
    refine ⟨h.1, ?_⟩
    rw [hr x (by simp)]
    exact ih (fun y hy => hr y (by simp [hy])) h.2

theorem prevChain_nil {s : FS} {c e : Int} : prevChain s c [] e ↔ c = e :=
  Iff.rfl

theorem prevChain_cons {s : FS} {c x e : Int} {xs : List Int} :
    prevChain s c (x :: xs) e ↔
      c = x ∧ prevChain s (readSlot s x).prev xs e :=
  Iff.rfl

theorem prevChain_head {s : FS} {c e : Int} {l : List Int}
    (h : prevChain s c l e) : c = l.headD e := by
  cases l with
  | nil => exact h
  | cons x xs => exact h.1

theorem prevChain_append {s : FS} {c e : Int} {l1 l2 : List Int} :
    prevChain s c (l1 ++ l2) e ↔
      ∃ m, prevChain s c l1 m ∧ prevChain s m l2 e := by
  induction l1 generalizing c with
  | nil =>
    simp only [List.nil_append, prevChain_nil]
    constructor
    · intro h; exact ⟨c, rfl, h⟩
    · rintro ⟨m, rfl, h⟩; exact h
  | cons x xs ih =>
    simp only [List.cons_append, prevChain_cons, ih, and_assoc]
    constructor
    · rintro ⟨rfl, m, h1, h2⟩; exact ⟨m, rfl, h1, h2⟩
    · rintro ⟨m, rfl, h1, h2⟩; exact ⟨rfl, m, h1, h2⟩

theorem prevChain_singleton {s : FS} {c a e : Int} :
    prevChain s c [a] e ↔ c = a ∧ (readSlot s a).prev = e := by
  simp [prevChain_cons, prevChain_nil]

theorem prevChain_snoc {s : FS} {c a e : Int} {l : List Int} :
    prevChain s c (l ++ [a]) e ↔
      prevChain s c l a ∧ (readSlot s a).prev = e := by
  simp only [prevChain_append, prevChain_singleton]
  constructor
  · rintro ⟨m, h1, rfl, h2⟩; exact ⟨h1, h2⟩
  · rintro ⟨h1, h2⟩; exact ⟨a, h1, rfl, h2⟩

theorem prevChain_congr {s s' : FS} {c e : Int} {l : List Int}
    (hr : ∀ x ∈ l, (readSlot s' x).prev = (readSlot s x).prev)
    (h : prevChain s c l e) : prevChain s' c l e := by
  induction l generalizing c with
  | nil => exact h
  | cons x xs ih =>
    refine ⟨h.1, ?_⟩
    rw [hr x (by simp)]
    exact ih (fun y hy => hr y (by simp [hy])) h.2

/-! ## Cursor range lemmas -/

theorem mem_allCursors {s : FS} {x : Int} :
    x ∈ allCursors s ↔ 1 ≤ x ∧ x ≤ (s.slots.length : Int) := by
  simp only [allCursors, List.mem_map, List.mem_range]
  constructor
  · rintro ⟨i, hi, rfl⟩
    constructor <;> omega
  · rintro ⟨h1, h2⟩
    exact ⟨(x - 1).toNat, by omega, by omega⟩

theorem allCursors_nodup (s : FS) : (allCursors s).Nodup := by
  refine List.Nodup.map (fun a b hab => ?_) (List.nodup_range s.slots.length)
  simpa using hab

/-! ## Consequences of the invariant -/

theorem ChainInv.nodup {s : FS} {act fre : List Int}
    (h : ChainInv s act fre) : (act ++ fre).Nodup :=
  h.perm.nodup_iff.mpr (allCursors_nodup s)

theorem ChainInv.act_nodup {s : FS} {act fre : List Int}
    (h : ChainInv s act fre) : act.Nodup :=
  (List.nodup_append.mp h.nodup).1

theorem ChainInv.fre_nodup {s : FS} {act fre : List Int}
    (h : ChainInv s act fre) : fre.Nodup :=
  (List.nodup_append.mp h.nodup).2.1

theorem ChainInv.disj {s : FS} {act fre : List Int}
    (h : ChainInv s act fre) {x : Int} (hx : x ∈ act) (hx' : x ∈ fre) :
    False :=
  (List.nodup_append.mp h.nodup).2.2 hx hx'

theorem ChainInv.mem_valid {s : FS} {act fre : List Int}
    (h : ChainInv s act fre) {x : Int} (hx : x ∈ act ∨ x ∈ fre) :
    1 ≤ x ∧ x ≤ (s.slots.length : Int) :=
  mem_allCursors.mp (h.perm.mem_iff.mp (by simpa using hx))

theorem ChainInv.act_valid {s : FS} {act fre : List Int}
    (h : ChainInv s act fre) {x : Int} (hx : x ∈ act) :
    1 ≤ x ∧ x ≤ (s.slots.length : Int) :=
  h.mem_valid (Or.inl hx)

theorem ChainInv.fre_valid {s : FS} {act fre : List Int}
    (h : ChainInv s act fre) {x : Int} (hx : x ∈ fre) :
    1 ≤ x ∧ x ≤ (s.slots.length : Int) :=
  h.mem_valid (Or.inr hx)

theorem ChainInv.length_add {s : FS} {act fre : List Int}
    (h : ChainInv s act fre) : act.length + fre.length = s.slots.length := by
  have := h.perm.length_eq
  simpa [allCursors] using this

theorem ChainInv.act_ne_neg {s : FS} {act fre : List Int}
    (h : ChainInv s act fre) {x : Int} (hx : x ∈ act) : x ≠ -1 := by
  have := h.act_valid hx
  omega

theorem ChainInv.fre_ne_neg {s : FS} {act fre : List Int}
    (h : ChainInv s act fre) {x : Int} (hx : x ∈ fre) : x ≠ -1 := by
  have := h.fre_valid hx
  omega

/-! ## The invariant holds after `inicializar` -/

theorem readSlot_inicializar {n c : Int} (h1 : 1 ≤ c) (h2 : c ≤ n) :
    readSlot (inicializar n) c =
      ⟨if c = n then -1 else c + 1, -1, ⟨-1, ""⟩⟩ := by
  unfold readSlot inicializar
  have hlt : (c - 1).toNat < n.toNat := by omega
  rw [List.getD_eq_getElem?_getD, List.getElem?_map, List.getElem?_range hlt]
  have hc : ((c - 1).toNat : Int) = c - 1 := by omega
  simp only [Option.map_some', Option.getD_some, hc]
  have e1 : c - 1 + 1 = c := by ring
  have e2 : c - 1 + 2 = c + 1 := by ring
  rw [e1, e2]

theorem inicializar_slots_length (n : Int) :
    (inicializar n).slots.length = n.toNat := by
  simp [inicializar]

theorem nextChain_inicializar_seg (n : Int) :
    ∀ (m : Nat) (a : Int), 1 ≤ a → a + m = n + 1 → 1 ≤ m →
    nextChain (inicializar n) a
      ((List.range m).map fun (i : Nat) => a + i) (-1) := by
  intro m
  induction m with
  | zero => omega
  | succ m ih =>
    intro a ha hend _
    rw [List.range_succ_eq_map]
    simp only [List.map_cons, Nat.cast_zero, add_zero]
    have hslot : readSlot (inicializar n) a =
        ⟨if a = n then -1 else a + 1, -1, ⟨-1, ""⟩⟩ :=
      readSlot_inicializar ha (by omega)
    refine ⟨rfl, ?_⟩
    rw [hslot]
    rcases Nat.eq_zero_or_pos m with hm | hm
    · subst hm
      have han : a = n := by omega
      simp [han, nextChain_nil]
    · have han : a ≠ n := by omega
      have step := ih (a + 1) (by omega) (by omega) hm
      have hmap : (List.range m).map (fun (i : Nat) => a + 1 + (i : Int)) =
          ((List.range m).map (Nat.succ)).map fun (i : Nat) => a + i := by
        rw [List.map_map]
        refine List.map_congr_left fun i _ => ?_
        simp [Nat.succ_eq_add_one]
        ring
      rw [if_neg han]
      rw [hmap] at step
      exact step

theorem allCursors_inicializar (n : Int) :
    allCursors (inicializar n) =
      (List.range n.toNat).map fun (i : Nat) => (1 : Int) + i := by
  unfold allCursors
  rw [inicializar_slots_length]
  refine List.map_congr_left fun i _ => by ring

theorem chainInv_inicializar (n : Int) (hn : 1 ≤ n) :
    ChainInv (inicializar n) [] (allCursors (inicializar n)) := by
  refine ⟨?_, by simp, by simp [inicializar], ?_, ?_, ?_, ?_⟩
  · show n = _
    rw [inicializar_slots_length]; omega
  · exact rfl
  · exact rfl
  · show nextChain (inicializar n) 1 (allCursors (inicializar n)) (-1)
    rw [allCursors_inicializar]
    exact nextChain_inicializar_seg n n.toNat 1 (by omega) (by omega) (by omega)
  · intro c hc
    have hb := mem_allCursors.mp hc
    rw [inicializar_slots_length] at hb
    rw [readSlot_inicializar hb.1 (by omega)]

/-! ## Loop characterizations -/

theorem pesquisaAux_none {s : FS} {k : Int} {l : List Int} {c : Int}
    {fuel : Nat}
    (hch : nextChain s c l (-1)) (hne : ∀ x ∈ l, x ≠ -1)
    (hfuel : l.length ≤ fuel)
    (hk : ∀ x ∈ l, (readSlot s x).reg.chave ≠ k) :
    pesquisaAux s k fuel c = none := by
  induction l generalizing c fuel with
  | nil =>
    rcases hch with rfl
    cases fuel with
    | zero => rfl
    | succ f => simp [pesquisaAux]
  | cons x xs ih =>
    obtain ⟨rfl, htail⟩ := hch
    cases fuel with
    | zero => simp at hfuel
    | succ f =>
      have hx : c ≠ -1 := hne c (by simp)
      simp only [pesquisaAux, if_neg hx, if_neg (hk c (by simp))]
      exact ih htail (fun y hy => hne y (by simp [hy]))
        (by simp at hfuel ⊢; omega)
        (fun y hy => hk y (by simp [hy]))

theorem pesquisaAux_found {s : FS} {k : Int} {l1 l2 : List Int} {x c : Int}
    {fuel : Nat}
    (hch : nextChain s c (l1 ++ x :: l2) (-1))
    (hne : ∀ y ∈ l1 ++ x :: l2, y ≠ -1)
    (hfuel : (l1 ++ x :: l2).length ≤ fuel)
    (hk1 : ∀ y ∈ l1, (readSlot s y).reg.chave ≠ k)
    (hx : (readSlot s x).reg.chave = k) :
    pesquisaAux s k fuel c = some x := by
  induction l1 generalizing c fuel with
  | nil =>
    obtain ⟨rfl, -⟩ := hch
    cases fuel with
    | zero => simp at hfuel
    | succ f =>
      have hxne : c ≠ -1 := hne c (by simp)
      simp [pesquisaAux, if_neg hxne, hx]
  | cons y ys ih =>
    obtain ⟨rfl, htail⟩ := hch
    cases fuel with
    | zero => simp at hfuel
    | succ f =>
      have hyne : c ≠ -1 := hne c (by simp)
      simp only [pesquisaAux, if_neg hyne, if_neg (hk1 c (by simp))]
      exact ih htail (fun z hz => hne z (by simp at hz ⊢; tauto))
        (by simp at hfuel ⊢; omega)
        (fun z hz => hk1 z (by simp [hz]))

/-- Splitting a list at the first element satisfying `p`. -/
theorem exists_first_split {α : Type} (p : α → Prop) [DecidablePred p] :
    ∀ (l : List α), (∃ x ∈ l, p x) →
    ∃ l1 x l2, l = l1 ++ x :: l2 ∧ (∀ y ∈ l1, ¬ p y) ∧ p x := by
  intro l
  induction l with
  | nil => rintro ⟨x, hx, -⟩; simp at hx
  | cons a t ih =>
    intro hex
    by_cases ha : p a
    · exact ⟨[], a, t, by simp, by simp, ha⟩
    · obtain ⟨x, hx, hpx⟩ := hex
      rcases List.mem_cons.mp hx with rfl | hxt
      · exact absurd hpx ha
      · obtain ⟨l1, x', l2, heq, hl1, hx'⟩ := ih ⟨x, hxt, hpx⟩
        exact ⟨a :: l1, x', l2, by simp [heq], by
          intro y hy
          rcases List.mem_cons.mp hy with rfl | hy'
          · exact ha
          · exact hl1 y hy', hx'⟩

theorem pesquisa_eq_none_iff {s : FS} {act fre : List Int} {k : Int}
    (h : ChainInv s act fre) :
    pesquisa s k = none ↔ ∀ x ∈ act, (readSlot s x).reg.chave ≠ k := by
  have hlen : act.length ≤ s.slots.length + 1 := by
    have := h.length_add; omega
  constructor
  · intro hnone x hx hkey
    obtain ⟨l1, x', l2, heq, hl1, hx'⟩ :=
      exists_first_split (fun c => (readSlot s c).reg.chave = k) act
        ⟨x, hx, hkey⟩
    have hfound : pesquisa s k = some x' :=
      @pesquisaAux_found s k l1 l2 x' s.cab.first (s.slots.length + 1)
        (heq ▸ h.fwd) (heq ▸ fun y hy => h.act_ne_neg hy)
        (heq ▸ hlen) hl1 hx'
    rw [hnone] at hfound
    exact Option.noConfusion hfound
  · intro hk
    exact pesquisaAux_none h.fwd (fun y hy => h.act_ne_neg hy) hlen hk

theorem buscaPos_spec {s : FS} {k : Int} {l : List Int} {c p0 : Int}
    {fuel : Nat}
    (hch : nextChain s c l (-1)) (hne : ∀ x ∈ l, x ≠ -1)
    (hfuel : l.length ≤ fuel) :
    ∃ l1 l2, l = l1 ++ l2 ∧
      (∀ x ∈ l1, ¬((readSlot s x).reg.chave > k)) ∧
      (l2 = [] ∨ (readSlot s (l2.headD (-1))).reg.chave > k) ∧
      buscaPos s k fuel p0 c = (l1.getLastD p0, l2.headD (-1)) := by
  induction l generalizing c p0 fuel with
  | nil =>
    rcases hch with rfl
    refine ⟨[], [], by simp, by simp, Or.inl rfl, ?_⟩
    cases fuel with
    | zero => rfl
    | succ f => simp [buscaPos]
  | cons x xs ih =>
    obtain ⟨rfl, htail⟩ := hch
    cases fuel with
    | zero => simp at hfuel
    | succ f =>
      have hx : c ≠ -1 := hne c (by simp)
      by_cases hgt : (readSlot s c).reg.chave > k
      · refine ⟨[], c :: xs, by simp, by simp, Or.inr (by simpa using hgt), ?_⟩
        simp only [buscaPos, if_neg hx, if_pos hgt]
        simp
      · obtain ⟨l1, l2, heq, hl1, hl2, hres⟩ :=
          @ih (readSlot s c).next c f htail
            (fun y hy => hne y (by simp [hy]))
            (by simp at hfuel ⊢; omega)
        refine ⟨c :: l1, l2, by simp [heq], ?_, hl2, ?_⟩
        · intro y hy
          rcases List.mem_cons.mp hy with rfl | hy'
          · exact hgt
          · exact hl1 y hy'
        · simp only [buscaPos, if_neg hx, if_neg hgt]
          rw [hres, List.getLastD_cons]

theorem removerLoop_none {s : FS} {k : Int} {l : List Int} {c : Int}
    {fuel : Nat}
    (hch : nextChain s c l (-1)) (hne : ∀ x ∈ l, x ≠ -1)
    (hfuel : l.length ≤ fuel)
    (hk : ∀ x ∈ l, (readSlot s x).reg.chave ≠ k) :
    removerLoop s k fuel c = none := by
  induction l generalizing c fuel with
  | nil =>
    rcases hch with rfl
    cases fuel with
    | zero => rfl
    | succ f => simp [removerLoop]
  | cons x xs ih =>
    obtain ⟨rfl, htail⟩ := hch
    cases fuel with
    | zero => simp at hfuel
    | succ f =>
      have hx : c ≠ -1 := hne c (by simp)
      simp only [removerLoop, if_neg hx, if_neg (hk c (by simp))]
      exact ih htail (fun y hy => hne y (by simp [hy]))
        (by simp at hfuel ⊢; omega)
        (fun y hy => hk y (by simp [hy]))

theorem removerLoop_found {s : FS} {k : Int} {l1 l2 : List Int} {x c : Int}
    {fuel : Nat}
    (hch : nextChain s c (l1 ++ x :: l2) (-1))
    (hne : ∀ y ∈ l1 ++ x :: l2, y ≠ -1)
    (hfuel : (l1 ++ x :: l2).length ≤ fuel)
    (hk1 : ∀ y ∈ l1, (readSlot s y).reg.chave ≠ k)
    (hx : (readSlot s x).reg.chave = k) :
    removerLoop s k fuel c = some (removerAt s x) := by
  induction l1 generalizing c fuel with
  | nil =>
    obtain ⟨rfl, -⟩ := hch
    cases fuel with
    | zero => simp at hfuel
    | succ f =>
      have hxne : c ≠ -1 := hne c (by simp)
      simp [removerLoop, if_neg hxne, hx]
  | cons y ys ih =>
    obtain ⟨rfl, htail⟩ := hch
    cases fuel with
    | zero => simp at hfuel
    | succ f =>
      have hyne : c ≠ -1 := hne c (by simp)
      simp only [removerLoop, if_neg hyne, if_neg (hk1 c (by simp))]
      exact ih htail (fun z hz => hne z (by simp at hz ⊢; tauto))
        (by simp at hfuel ⊢; omega)
        (fun z hz => hk1 z (by simp [hz]))

/-! ## Further list helpers -/

theorem headD_reverse (l : List Int) (d : Int) :
    l.reverse.headD d = l.getLastD d := by
  cases l using List.reverseRecOn <;> simp

theorem headD_mem {l : List Int} (h : l ≠ []) (d : Int) : l.headD d ∈ l := by
  cases l with
  | nil => exact absurd rfl h
  | cons a t => simp

theorem getLastD_mem {l : List Int} (h : l ≠ []) (d : Int) :
    l.getLastD d ∈ l := by
  cases l using List.reverseRecOn with
  | nil => exact absurd rfl h
  | append_singleton t a => simp

theorem dropLast_append_getLastD {l : List Int} (h : l ≠ []) (d : Int) :
    l.dropLast ++ [l.getLastD d] = l := by
  cases l using List.reverseRecOn with
  | nil => exact absurd rfl h
  | append_singleton t a => simp

theorem not_mem_of_snoc_nodup {l : List Int} {a : Int}
    (h : (l ++ [a]).Nodup) : a ∉ l := by
  simp [List.nodup_append] at h
  tauto

/-! ## Reading through writes and header updates -/

theorem readSlot_mkcab {cab : Header} {t : FS} {x : Int} :
    readSlot ⟨cab, t.slots⟩ x = readSlot t x := rfl

theorem readSlot_two_writes {s : FS} {c1 c2 x : Int} {n1 n2 : Node}
    (h1 : 1 ≤ c1) (h2 : 1 ≤ c2) (hx : 1 ≤ x)
    (hx1 : x ≠ c1) (hx2 : x ≠ c2) :
    readSlot (writeSlot (writeSlot s c1 n1) c2 n2) x = readSlot s x := by
  rw [readSlot_writeSlot_ne n2 h2 hx hx2, readSlot_writeSlot_ne n1 h1 hx hx1]

theorem allCursors_eq_of_length {s s' : FS}
    (h : s'.slots.length = s.slots.length) : allCursors s' = allCursors s := by
  unfold allCursors
  rw [h]

/-! ## Branch equations for `inserir` -/

theorem inserir_dup {s : FS} {d : Dados}
    (h : (pesquisa s d.chave).isSome) : inserir s d = s := by
  simp [inserir, h]

theorem inserir_full {s : FS} {d : Dados} (h : s.cab.free = -1) :
    inserir s d = s := by
  unfold inserir
  split
  · rfl
  · simp [h]

theorem inserir_eq_nonempty {s : FS} {d : Dados}
    (hdup : pesquisa s d.chave = none) (hfree : s.cab.free ≠ -1)
    (hlast : s.cab.last ≠ -1) :
    inserir s d =
      { cab := { quant := s.cab.quant + 1,
                 first := if s.cab.first = -1 then s.cab.free else s.cab.first,
                 last := s.cab.free,
                 free := (readSlot s s.cab.free).next,
                 tam := s.cab.tam },
        slots := (writeSlot (writeSlot s s.cab.last
            { readSlot s s.cab.last with next := s.cab.free })
          s.cab.free { next := -1, prev := s.cab.last, reg := d }).slots } := by
  simp [inserir, hdup, hfree, hlast]

theorem inserir_eq_empty {s : FS} {d : Dados}
    (hdup : pesquisa s d.chave = none) (hfree : s.cab.free ≠ -1)
    (hlast : s.cab.last = -1) :
    inserir s d =
      { cab := { quant := s.cab.quant + 1,
                 first := if s.cab.first = -1 then s.cab.free else s.cab.first,
                 last := s.cab.free,
                 free := (readSlot s s.cab.free).next,
                 tam := s.cab.tam },
        slots := (writeSlot s s.cab.free
          { next := -1, prev := s.cab.last, reg := d }).slots } := by
  simp [inserir, hdup, hfree, hlast]

/-- A successful `inserir` pops the free-chain head `f0 = free` and appends it
to the active chain; records of old active slots are untouched and the new
slot carries `d`. -/
theorem chainInv_inserir {s : FS} {act fre : List Int} (h : ChainInv s act fre)
    {d : Dados} (hdup : pesquisa s d.chave = none) (hfree : s.cab.free ≠ -1) :
    ∃ fre', fre = s.cab.free :: fre' ∧
      ChainInv (inserir s d) (act ++ [s.cab.free]) fre' ∧
      (∀ x ∈ act, (readSlot (inserir s d) x).reg = (readSlot s x).reg) ∧
      (readSlot (inserir s d) s.cab.free).reg = d := by
  obtain ⟨f0, fre', rfl⟩ : ∃ f0 fre', fre = f0 :: fre' := by
    cases fre with
    | nil => exact absurd (show s.cab.free = -1 from h.fre_ch) hfree
    | cons a t => exact ⟨a, t, rfl⟩
  have hf0 : s.cab.free = f0 := h.fre_ch.1
  subst hf0
  have hfv : 1 ≤ s.cab.free ∧ s.cab.free ≤ (s.slots.length : Int) :=
    h.fre_valid (List.mem_cons_self _ _)
  have hfnact : s.cab.free ∉ act := fun hx =>
    h.disj hx (List.mem_cons_self _ _)
  have hfnfre' : s.cab.free ∉ fre' := (List.nodup_cons.mp h.fre_nodup).1
  have hfre'_val : ∀ x ∈ fre', 1 ≤ x ∧ x ≤ (s.slots.length : Int) :=
    fun x hx => h.fre_valid (List.mem_cons_of_mem _ hx)
  have hfre'_ne : ∀ x ∈ fre', x ≠ s.cab.free := fun x hx hc =>
    hfnfre' (hc ▸ hx)
  have hfre'_tail : nextChain s (readSlot s s.cab.free).next fre' (-1) :=
    h.fre_ch.2
  rcases List.eq_nil_or_concat act with rfl | ⟨dl, lastv, hact⟩
  · -- the active list is empty
    have hfirst : s.cab.first = -1 := h.fwd
    have hlast : s.cab.last = -1 := h.bwd
    have heq := inserir_eq_empty hdup hfree hlast
    have hrd_free :
        readSlot (inserir s d) s.cab.free =
          ⟨-1, s.cab.last, d⟩ := by
      rw [heq, readSlot_mkcab, readSlot_writeSlot_self _ hfv.1 hfv.2]
    have hrd_other : ∀ x, 1 ≤ x → x ≠ s.cab.free →
        readSlot (inserir s d) x = readSlot s x := by
      intro x hx hxf
      rw [heq, readSlot_mkcab, readSlot_writeSlot_ne _ hfv.1 hx hxf]
    have hlen : (inserir s d).slots.length = s.slots.length := by
      rw [heq]
      exact writeSlot_length _ _ _
    refine ⟨fre', rfl, ⟨?_, ?_, ?_, ?_, ?_, ?_, ?_⟩, by simp, by
      rw [hrd_free]⟩
    · rw [heq]
      show s.cab.tam = _
      rw [writeSlot_length]
      exact h.tam_eq
    · rw [allCursors_eq_of_length hlen]
      simpa using h.perm
    · have hq := h.quant_eq
      rw [heq]
      show s.cab.quant + 1 = _
      simp at hq ⊢
      omega
    · have hcf : (inserir s d).cab.first = s.cab.free := by
        rw [heq]
        show (if s.cab.first = -1 then s.cab.free else s.cab.first) = _
        rw [if_pos hfirst]
      rw [hcf]
      show nextChain _ _ ([] ++ [s.cab.free]) _
      rw [List.nil_append, nextChain_singleton]
      exact ⟨rfl, by rw [hrd_free]⟩
    · have hcl : (inserir s d).cab.last = s.cab.free := by rw [heq]
      rw [hcl]
      show prevChain _ _ (([] ++ [s.cab.free]).reverse) _
      rw [List.nil_append, List.reverse_singleton, prevChain_singleton]
      exact ⟨rfl, by rw [hrd_free]; exact hlast⟩
    · have hcf : (inserir s d).cab.free = (readSlot s s.cab.free).next := by
        rw [heq]
      rw [hcf]
      exact nextChain_congr (fun x hx => by
        rw [hrd_other x (hfre'_val x hx).1 (hfre'_ne x hx)]) hfre'_tail
    · intro c hc
      rw [hrd_other c (hfre'_val c hc).1 (hfre'_ne c hc)]
      exact h.fre_keys c (List.mem_cons_of_mem _ hc)
  · -- the active list ends at lastv
    rw [List.concat_eq_append] at hact
    subst hact
    have hact_ne : dl ++ [lastv] ≠ [] := by simp
    have hlastv : s.cab.last = lastv := by
      have := prevChain_head h.bwd
      simpa using this
    have hlv_mem : lastv ∈ dl ++ [lastv] := by simp
    have hlv_val := h.act_valid hlv_mem
    have hlast_ne : s.cab.last ≠ -1 := by omega
    have hfirst_ne : s.cab.first ≠ -1 := by
      have hmem : s.cab.first ∈ dl ++ [lastv] := by
        rw [nextChain_head h.fwd]
        exact headD_mem hact_ne _
      exact h.act_ne_neg hmem
    have hlv_ne_f : lastv ≠ s.cab.free := fun hc => hfnact (hc ▸ hlv_mem)
    have hlv_nin_dl : lastv ∉ dl := not_mem_of_snoc_nodup h.act_nodup
    have heq := inserir_eq_nonempty hdup hfree hlast_ne
    have hlen1 : (writeSlot s s.cab.last
        { readSlot s s.cab.last with next := s.cab.free }).slots.length =
        s.slots.length := writeSlot_length _ _ _
    have hrd_free :
        readSlot (inserir s d) s.cab.free = ⟨-1, s.cab.last, d⟩ := by
      rw [heq, readSlot_mkcab,
        readSlot_writeSlot_self _ hfv.1 (by rw [hlen1]; exact hfv.2)]
    have hrd_last :
        readSlot (inserir s d) lastv =
          { readSlot s lastv with next := s.cab.free } := by
      rw [heq, readSlot_mkcab,
        readSlot_writeSlot_ne _ hfv.1 (by omega) hlv_ne_f, hlastv,
        readSlot_writeSlot_self _ (by omega) (by omega)]
    have hrd_other : ∀ x, 1 ≤ x → x ≠ lastv → x ≠ s.cab.free →
        readSlot (inserir s d) x = readSlot s x := by
      intro x hx hxl hxf
      rw [heq, readSlot_mkcab, hlastv,
        readSlot_two_writes (by omega) hfv.1 hx hxl hxf]
    have hlen : (inserir s d).slots.length = s.slots.length := by
      rw [heq]
      show (writeSlot _ _ _).slots.length = _
      rw [writeSlot_length, hlen1]
    have hdl_sub : ∀ x ∈ dl, 1 ≤ x ∧ x ≤ (s.slots.length : Int) :=
      fun x hx => h.act_valid (by simp [hx])
    have hdl_ne_l : ∀ x ∈ dl, x ≠ lastv := fun x hx hc =>
      hlv_nin_dl (hc ▸ hx)
    have hdl_ne_f : ∀ x ∈ dl, x ≠ s.cab.free := fun x hx hc =>
      hfnact (hc ▸ (by simp [hx] : x ∈ dl ++ [lastv]))
    have hsnoc := nextChain_snoc.mp h.fwd
    have hregs : ∀ x ∈ dl ++ [lastv],
        (readSlot (inserir s d) x).reg = (readSlot s x).reg := by
      intro x hx
      rcases List.mem_append.mp hx with hx' | hx'
      · rw [hrd_other x (hdl_sub x hx').1 (hdl_ne_l x hx') (hdl_ne_f x hx')]
      · have : x = lastv := by simpa using hx'
        subst this
        rw [hrd_last]
    refine ⟨fre', rfl, ⟨?_, ?_, ?_, ?_, ?_, ?_, ?_⟩, hregs, by rw [hrd_free]⟩
    · rw [heq]
      show s.cab.tam = _
      show _ = ((writeSlot _ _ _).slots.length : Int)
      rw [writeSlot_length, hlen1]
      exact h.tam_eq
    · rw [allCursors_eq_of_length hlen, List.append_assoc]
      simpa using h.perm
    · have hq := h.quant_eq
      rw [heq]
      show s.cab.quant + 1 = _
      simp at hq ⊢
      omega
    · have hcf : (inserir s d).cab.first = s.cab.first := by
        rw [heq]
        show (if s.cab.first = -1 then s.cab.free else s.cab.first) = _
        rw [if_neg hfirst_ne]
      rw [hcf, nextChain_snoc]
      refine ⟨?_, by rw [hrd_free]⟩
      rw [nextChain_snoc]
      refine ⟨?_, by rw [hrd_last]⟩
      exact nextChain_congr (fun x hx => by
        rw [hrd_other x (hdl_sub x hx).1 (hdl_ne_l x hx) (hdl_ne_f x hx)])
        hsnoc.1
    · have hcl : (inserir s d).cab.last = s.cab.free := by rw [heq]
      rw [hcl]
      have hrevs : ((dl ++ [lastv]) ++ [s.cab.free]).reverse =
          s.cab.free :: (dl ++ [lastv]).reverse := by simp
      rw [hrevs, prevChain_cons]
      refine ⟨rfl, ?_⟩
      rw [hrd_free]
      show prevChain _ s.cab.last _ _
      refine prevChain_congr (fun x hx => ?_) h.bwd
      have hx' : x ∈ dl ++ [lastv] := List.mem_reverse.mp hx
      rcases List.mem_append.mp hx' with hm | hm
      · rw [hrd_other x (hdl_sub x hm).1 (hdl_ne_l x hm) (hdl_ne_f x hm)]
      · have : x = lastv := by simpa using hm
        subst this
        rw [hrd_last]
    · have hcf : (inserir s d).cab.free = (readSlot s s.cab.free).next := by
        rw [heq]
      rw [hcf]
      refine nextChain_congr (fun x hx => ?_) hfre'_tail
      have hxl : x ≠ lastv := fun hc =>
        h.disj (hc ▸ hlv_mem) (List.mem_cons_of_mem _ hx)
      rw [hrd_other x (hfre'_val x hx).1 hxl (hfre'_ne x hx)]
    · intro c hc
      have hxl : c ≠ lastv := fun h' =>
        h.disj (h' ▸ hlv_mem) (List.mem_cons_of_mem _ hc)
      rw [hrd_other c (hfre'_val c hc).1 hxl (hfre'_ne c hc)]
      exact h.fre_keys c (List.mem_cons_of_mem _ hc)

theorem ite_slots_length {P : Prop} [Decidable P] {a b : FS} {n : Nat}
    (h1 : a.slots.length = n) (h2 : b.slots.length = n) :
    (if P then a else b).slots.length = n := by
  split
  · exact h1
  · exact h2

theorem getLastD_append_cons :
    ∀ (l1 : List Int) (x : Int) (l2 : List Int) (d : Int),
    (l1 ++ x :: l2).getLastD d = l2.getLastD x := by
  intro l1
  induction l1 with
  | nil => intro x l2 d; rw [List.nil_append, List.getLastD_cons]
  | cons a t ih =>
    intro x l2 d
    rw [List.cons_append, List.getLastD_cons, ih]

/-- Unsplicing the middle cursor of the active chain: `removerAt` moves `x`
from the active to the free chain and leaves all other records untouched. -/
theorem chainInv_removerAt {s : FS} {act fre : List Int}
    (h : ChainInv s act fre) {l1 l2 : List Int} {x : Int}
    (hsplit : act = l1 ++ x :: l2) :
    ChainInv (removerAt s x) (l1 ++ l2) (x :: fre) ∧
    (∀ y ∈ l1 ++ l2, (readSlot (removerAt s x) y).reg = (readSlot s y).reg) := by
  subst hsplit
  -- membership, bounds, distinctness
  have hx_mem : x ∈ l1 ++ x :: l2 := by simp
  have hx_val := h.act_valid hx_mem
  obtain ⟨hnd1, hnd2, hdisj⟩ := List.nodup_append.mp h.act_nodup
  have hx_l2 : x ∉ l2 := (List.nodup_cons.mp hnd2).1
  have hnd_l2 : l2.Nodup := (List.nodup_cons.mp hnd2).2
  have hx_l1 : x ∉ l1 := fun hy => hdisj hy (by simp)
  have h12 : ∀ y ∈ l1, y ∉ l2 := fun y hy hy2 => hdisj hy (by simp [hy2])
  have hl1_val : ∀ y ∈ l1, 1 ≤ y ∧ y ≤ (s.slots.length : Int) :=
    fun y hy => h.act_valid (by simp [hy])
  have hl2_val : ∀ y ∈ l2, 1 ≤ y ∧ y ≤ (s.slots.length : Int) :=
    fun y hy => h.act_valid (by simp [hy])
  have hfre_x : x ∉ fre := fun hy => h.disj hx_mem hy
  have hfre_l1 : ∀ y ∈ l1, y ∉ fre := fun y hy hy' =>
    h.disj (by simp [hy] : y ∈ l1 ++ x :: l2) hy'
  have hfre_l2 : ∀ y ∈ l2, y ∉ fre := fun y hy hy' =>
    h.disj (by simp [hy] : y ∈ l1 ++ x :: l2) hy'
  have hfre_val : ∀ y ∈ fre, 1 ≤ y ∧ y ≤ (s.slots.length : Int) :=
    fun y hy => h.fre_valid hy
  -- decompose the forward chain
  obtain ⟨m, hl1_chain, hm_x, hnx_chain⟩ := nextChain_append.mp h.fwd
  rw [hm_x] at hl1_chain
  have hnx_def : (readSlot s x).next = l2.headD (-1) := nextChain_head hnx_chain
  -- decompose the backward chain
  have hbwd := h.bwd
  rw [show (l1 ++ x :: l2).reverse = l2.reverse ++ x :: l1.reverse by simp]
    at hbwd
  obtain ⟨m2, hl2_rev, hm2_x, hpx_chain⟩ := prevChain_append.mp hbwd
  rw [hm2_x] at hl2_rev
  have hpx_def : (readSlot s x).prev = l1.getLastD (-1) := by
    have := prevChain_head hpx_chain
    rwa [headD_reverse] at this
  -- the branch conditions of removerAt, in terms of l1/l2
  have hP : (readSlot s x).prev ≠ -1 ↔ l1 ≠ [] := by
    constructor
    · intro hp hl
      rw [hpx_def, hl] at hp
      exact hp rfl
    · intro hl
      rw [hpx_def]
      have := hl1_val _ (getLastD_mem hl (-1))
      omega
  have hQ : (readSlot s x).next ≠ -1 ↔ l2 ≠ [] := by
    constructor
    · intro hp hl
      rw [hnx_def, hl] at hp
      exact hp rfl
    · intro hl
      rw [hnx_def]
      have := hl2_val _ (headD_mem hl (-1))
      omega
  have hpx_mem : l1 ≠ [] → (readSlot s x).prev ∈ l1 := fun hl =>
    hpx_def ▸ getLastD_mem hl (-1)
  have hnx_mem : l2 ≠ [] → (readSlot s x).next ∈ l2 := fun hl =>
    hnx_def ▸ headD_mem hl (-1)
  -- reads through the writes of removerAt
  have hlen : (removerAt s x).slots.length = s.slots.length := by
    simp only [removerAt]
    split_ifs <;> simp [writeSlot]
  have hfreed : readSlot (removerAt s x) x =
      ⟨s.cab.free, -1, ⟨-1, "[LIVRE]"⟩⟩ := by
    simp only [removerAt]
    rw [readSlot_mkcab]
    apply readSlot_writeSlot_self _ hx_val.1
    split_ifs <;> (try simp [writeSlot]) <;> omega
  have hother : ∀ y, 1 ≤ y → y ≠ x → y ≠ (readSlot s x).prev →
      y ≠ (readSlot s x).next →
      readSlot (removerAt s x) y = readSlot s y := by
    intro y hy hyx hyp hyn
    simp only [removerAt]
    rw [readSlot_mkcab, readSlot_writeSlot_ne _ hx_val.1 hy hyx]
    split_ifs with hq hp hp
    · have hnb := hl2_val _ (hnx_mem (hQ.mp hq))
      have hpb := hl1_val _ (hpx_mem (hP.mp hp))
      rw [readSlot_writeSlot_ne _ hnb.1 hy hyn,
          readSlot_writeSlot_ne _ hpb.1 hy hyp]
    · have hnb := hl2_val _ (hnx_mem (hQ.mp hq))
      rw [readSlot_writeSlot_ne _ hnb.1 hy hyn]
    · have hpb := hl1_val _ (hpx_mem (hP.mp hp))
      rw [readSlot_writeSlot_ne _ hpb.1 hy hyp]
    · rfl
  have hpx_ne_x : (readSlot s x).prev ≠ -1 → (readSlot s x).prev ≠ x := by
    intro hp hc
    exact hx_l1 (hc ▸ hpx_mem (hP.mp hp))
  have hnx_ne_x : (readSlot s x).next ≠ -1 → (readSlot s x).next ≠ x := by
    intro hq hc
    exact hx_l2 (hc ▸ hnx_mem (hQ.mp hq))
  have hpx_ne_nx : (readSlot s x).prev ≠ -1 → (readSlot s x).next ≠ -1 →
      (readSlot s x).prev ≠ (readSlot s x).next := by
    intro hp hq hc
    exact h12 _ (hpx_mem (hP.mp hp)) (hc ▸ hnx_mem (hQ.mp hq))
  have hpxread : (readSlot s x).prev ≠ -1 →
      readSlot (removerAt s x) ((readSlot s x).prev) =
        { readSlot s (readSlot s x).prev with
            next := (readSlot s x).next } := by
    intro hp
    have hpb := hl1_val _ (hpx_mem (hP.mp hp))
    simp only [removerAt]
    rw [readSlot_mkcab, readSlot_writeSlot_ne _ hx_val.1 hpb.1 (hpx_ne_x hp)]
    by_cases hq : (readSlot s x).next ≠ -1
    · have hnb := hl2_val _ (hnx_mem (hQ.mp hq))
      rw [if_pos hq, readSlot_writeSlot_ne _ hnb.1 hpb.1 (hpx_ne_nx hp hq),
          if_pos hp, readSlot_writeSlot_self _ hpb.1 hpb.2]
    · rw [if_neg hq, if_pos hp, readSlot_writeSlot_self _ hpb.1 hpb.2]
  have hnxread : (readSlot s x).next ≠ -1 →
      readSlot (removerAt s x) ((readSlot s x).next) =
        { readSlot s (readSlot s x).next with
            prev := (readSlot s x).prev } := by
    intro hq
    have hnb := hl2_val _ (hnx_mem (hQ.mp hq))
    simp only [removerAt]
    rw [readSlot_mkcab, readSlot_writeSlot_ne _ hx_val.1 hnb.1 (hnx_ne_x hq),
        if_pos hq]
    by_cases hp : (readSlot s x).prev ≠ -1
    · have hpb := hl1_val _ (hpx_mem (hP.mp hp))
      rw [if_pos hp,
          readSlot_writeSlot_self _ hnb.1 (by rw [writeSlot_length]; exact hnb.2),
          readSlot_writeSlot_ne _ hpb.1 hnb.1 (Ne.symm (hpx_ne_nx hp hq))]
    · rw [if_neg hp, readSlot_writeSlot_self _ hnb.1 hnb.2]
  -- header fields
  have hcab_free : (removerAt s x).cab.free = x := rfl
  have hcab_tam : (removerAt s x).cab.tam = s.cab.tam := rfl
  have hcab_quant : (removerAt s x).cab.quant = s.cab.quant - 1 := rfl
  have hcab_first : (removerAt s x).cab.first =
      if s.cab.quant - 1 = 0 then -1
      else if (readSlot s x).prev ≠ -1 then s.cab.first
      else (readSlot s x).next := rfl
  have hcab_last : (removerAt s x).cab.last =
      if s.cab.quant - 1 = 0 then -1
      else if (readSlot s x).next ≠ -1 then s.cab.last
      else (readSlot s x).prev := rfl
  have hq_len : s.cab.quant = ((l1 ++ x :: l2).length : Int) := h.quant_eq
  have hfirst_def : s.cab.first = l1.headD x := by
    have hh := nextChain_head h.fwd
    rw [hh]
    cases l1 <;> simp
  have hlast_def : s.cab.last = l2.getLastD x := by
    have hh := prevChain_head h.bwd
    rw [hh, headD_reverse, getLastD_append_cons]
  have hfirst' : (removerAt s x).cab.first = (l1 ++ l2).headD (-1) := by
    rw [hcab_first]
    by_cases hz : s.cab.quant - 1 = 0
    · rw [if_pos hz]
      simp at hq_len
      have hl1z : l1 = [] := List.length_eq_zero.mp (by omega)
      have hl2z : l2 = [] := List.length_eq_zero.mp (by omega)
      simp [hl1z, hl2z]
    · rw [if_neg hz]
      by_cases hl1 : l1 = []
      · rw [if_neg (fun hc => (hP.mp hc) hl1), hnx_def]
        simp [hl1]
      · rw [if_pos (hP.mpr hl1), hfirst_def]
        cases l1 with
        | nil => exact absurd rfl hl1
        | cons a t => simp
  have hlast' : (removerAt s x).cab.last = (l1 ++ l2).getLastD (-1) := by
    rw [hcab_last]
    by_cases hz : s.cab.quant - 1 = 0
    · rw [if_pos hz]
      simp at hq_len
      have hl1z : l1 = [] := List.length_eq_zero.mp (by omega)
      have hl2z : l2 = [] := List.length_eq_zero.mp (by omega)
      simp [hl1z, hl2z]
    · rw [if_neg hz]
      by_cases hl2 : l2 = []
      · rw [if_neg (fun hc => (hQ.mp hc) hl2), hpx_def]
        simp [hl2]
      · rw [if_pos (hQ.mpr hl2), hlast_def]
        rcases List.eq_nil_or_concat l2 with hnil | ⟨t, a, hl2eq⟩
        · exact absurd hnil hl2
        · rw [List.concat_eq_append] at hl2eq
          subst hl2eq
          simp
  -- the l2 part of the new forward chain
  have hl2_chainE :
      nextChain (removerAt s x) ((readSlot s x).next) l2 (-1) := by
    refine nextChain_congr (fun y hy => ?_) hnx_chain
    by_cases hynx : y = (readSlot s x).next
    · rw [hynx, hnxread (hQ.mpr (List.ne_nil_of_mem hy))]
    · have hb := hl2_val y hy
      have hyx : y ≠ x := fun hc => hx_l2 (hc ▸ hy)
      have hyp : y ≠ (readSlot s x).prev := by
        by_cases hl1 : l1 = []
        · rw [hl1] at hpx_def
          simp at hpx_def
          omega
        · intro hc
          exact h12 y (by rw [hc]; exact hpx_mem hl1) hy
      rw [hother y hb.1 hyx hyp hynx]
  -- the full new forward chain
  have hfwdE : nextChain (removerAt s x) ((l1 ++ l2).headD (-1))
      (l1 ++ l2) (-1) := by
    by_cases hl1 : l1 = []
    · subst hl1
      simp only [List.nil_append]
      rw [← hnx_def]
      exact hl2_chainE
    · rcases List.eq_nil_or_concat l1 with hnil | ⟨dl, pxv, hl1eq⟩
      · exact absurd hnil hl1
      · rw [List.concat_eq_append] at hl1eq
        subst hl1eq
        have hpxv : (readSlot s x).prev = pxv := by
          rw [hpx_def, getLastD_append_cons]
          rfl
        have hpxv_val := hl1_val pxv (by simp)
        have hsn := nextChain_snoc.mp hl1_chain
        have hdl_chainE :
            nextChain (removerAt s x) s.cab.first dl pxv := by
          refine nextChain_congr (fun y hy => ?_) hsn.1
          have hyl1 : y ∈ dl ++ [pxv] := by simp [hy]
          have hb := hl1_val y hyl1
          have hyx : y ≠ x := fun hc => hx_l1 (hc ▸ hyl1)
          have hypxv : y ≠ pxv := fun hc =>
            (not_mem_of_snoc_nodup hnd1) (hc ▸ hy)
          have hyp : y ≠ (readSlot s x).prev := by rw [hpxv]; exact hypxv
          have hyn : y ≠ (readSlot s x).next := by
            by_cases hl2 : l2 = []
            · rw [hl2] at hnx_def
              simp at hnx_def
              omega
            · intro hc
              exact h12 y hyl1 (by rw [hc]; exact hnx_mem hl2)
          rw [hother y hb.1 hyx hyp hyn]
        have hpxE : (readSlot (removerAt s x) pxv).next =
            (readSlot s x).next := by
          rw [← hpxv, hpxread (by omega)]
        have hchain1 : nextChain (removerAt s x) s.cab.first (dl ++ [pxv])
            ((readSlot s x).next) := nextChain_snoc.mpr ⟨hdl_chainE, hpxE⟩
        have hfull : nextChain (removerAt s x) s.cab.first
            ((dl ++ [pxv]) ++ l2) (-1) :=
          nextChain_append.mpr ⟨(readSlot s x).next, hchain1, hl2_chainE⟩
        have hsh : ((dl ++ [pxv]) ++ l2).headD (-1) = s.cab.first := by
          rw [hfirst_def]
          cases dl <;> simp
        rw [hsh]
        exact hfull
  -- the l1 part of the new backward chain
  have hl1_revE : prevChain (removerAt s x) ((readSlot s x).prev)
      l1.reverse (-1) := by
    refine prevChain_congr (fun y hy => ?_) hpx_chain
    have hyl1 : y ∈ l1 := List.mem_reverse.mp hy
    have hb := hl1_val y hyl1
    have hyx : y ≠ x := fun hc => hx_l1 (hc ▸ hyl1)
    have hyn : y ≠ (readSlot s x).next := by
      by_cases hl2 : l2 = []
      · rw [hl2] at hnx_def
        simp at hnx_def
        omega
      · intro hc
        exact h12 y hyl1 (by rw [hc]; exact hnx_mem hl2)
    by_cases hyp : y = (readSlot s x).prev
    · rw [hyp, hpxread (by rw [← hyp]; omega)]
    · rw [hother y hb.1 hyx hyp hyn]
  -- the full new backward chain
  have hbwdE : prevChain (removerAt s x) ((l1 ++ l2).getLastD (-1))
      ((l1 ++ l2).reverse) (-1) := by
    by_cases hl2 : l2 = []
    · subst hl2
      simp only [List.append_nil]
      rw [← hpx_def]
      exact hl1_revE
    · rcases l2 with _ | ⟨nxv, tl⟩
      · exact absurd rfl hl2
      · have hnxv : (readSlot s x).next = nxv := by rw [hnx_def]; rfl
        have hnxv_val := hl2_val nxv (by simp)
        rw [show (nxv :: tl).reverse = tl.reverse ++ [nxv] by simp] at hl2_rev
        have hsn2 := prevChain_snoc.mp hl2_rev
        have htl_revE : prevChain (removerAt s x) s.cab.last
            tl.reverse nxv := by
          refine prevChain_congr (fun y hy => ?_) hsn2.1
          have hytl : y ∈ tl := List.mem_reverse.mp hy
          have hyl2 : y ∈ nxv :: tl := by simp [hytl]
          have hb := hl2_val y hyl2
          have hyx : y ≠ x := fun hc => hx_l2 (hc ▸ hyl2)
          have hynxv : y ≠ nxv := fun hc =>
            (List.nodup_cons.mp hnd_l2).1 (hc ▸ hytl)
          have hyn : y ≠ (readSlot s x).next := by rw [hnxv]; exact hynxv
          have hyp : y ≠ (readSlot s x).prev := by
            by_cases hl1 : l1 = []
            · rw [hl1] at hpx_def
              simp at hpx_def
              omega
            · intro hc
              exact h12 y (by rw [hc]; exact hpx_mem hl1) hyl2
          rw [hother y hb.1 hyx hyp hyn]
        have hnxE : (readSlot (removerAt s x) nxv).prev =
            (readSlot s x).prev := by
          rw [← hnxv, hnxread (by omega)]
        have hchain2 : prevChain (removerAt s x) s.cab.last
            (tl.reverse ++ [nxv]) ((readSlot s x).prev) :=
          prevChain_snoc.mpr ⟨htl_revE, hnxE⟩
        have hfull : prevChain (removerAt s x) s.cab.last
            ((tl.reverse ++ [nxv]) ++ l1.reverse) (-1) :=
          prevChain_append.mpr ⟨(readSlot s x).prev, hchain2, hl1_revE⟩
        have hsh : (l1 ++ nxv :: tl).reverse =
            (tl.reverse ++ [nxv]) ++ l1.reverse := by simp
        have hgl : (l1 ++ nxv :: tl).getLastD (-1) = s.cab.last := by
          rw [getLastD_append_cons, hlast_def, List.getLastD_cons]
        rw [hsh, hgl]
        exact hfull
  -- assemble
  refine ⟨⟨?_, ?_, ?_, ?_, ?_, ?_, ?_⟩, ?_⟩
  · rw [hcab_tam, hlen]
    exact h.tam_eq
  · rw [allCursors_eq_of_length hlen]
    have p1 : ((l1 ++ l2) ++ x :: fre).Perm (x :: ((l1 ++ l2) ++ fre)) :=
      List.perm_middle
    have pm : (l1 ++ x :: l2).Perm (x :: (l1 ++ l2)) := List.perm_middle
    have p2 : ((l1 ++ x :: l2) ++ fre).Perm (x :: ((l1 ++ l2) ++ fre)) :=
      pm.append_right fre
    exact (p1.trans p2.symm).trans h.perm
  · rw [hcab_quant]
    simp at hq_len ⊢
    omega
  · rw [hfirst']
    exact hfwdE
  · rw [hlast']
    exact hbwdE
  · rw [hcab_free]
    refine ⟨rfl, ?_⟩
    rw [hfreed]
    refine nextChain_congr (fun y hy => ?_) h.fre_ch
    have hb := hfre_val y hy
    have hyx : y ≠ x := fun hc => hfre_x (hc ▸ hy)
    have hyp : y ≠ (readSlot s x).prev := by
      by_cases hl1 : l1 = []
      · rw [hl1] at hpx_def
        simp at hpx_def
        omega
      · intro hc
        exact hfre_l1 _ (hpx_mem hl1) (hc ▸ hy)
    have hyn : y ≠ (readSlot s x).next := by
      by_cases hl2 : l2 = []
      · rw [hl2] at hnx_def
        simp at hnx_def
        omega
      · intro hc
        exact hfre_l2 _ (hnx_mem hl2) (hc ▸ hy)
    rw [hother y hb.1 hyx hyp hyn]
  · intro y hy
    rcases List.mem_cons.mp hy with rfl | hy'
    · rw [hfreed]
    · have hb := hfre_val y hy'
      have hyx : y ≠ x := fun hc => hfre_x (hc ▸ hy')
      have hyp : y ≠ (readSlot s x).prev := by
        by_cases hl1 : l1 = []
        · rw [hl1] at hpx_def
          simp at hpx_def
          omega
        · intro hc
          exact hfre_l1 _ (hpx_mem hl1) (hc ▸ hy')
      have hyn : y ≠ (readSlot s x).next := by
        by_cases hl2 : l2 = []
        · rw [hl2] at hnx_def
          simp at hnx_def
          omega
        · intro hc
          exact hfre_l2 _ (hnx_mem hl2) (hc ▸ hy')
      rw [hother y hb.1 hyx hyp hyn]
      exact h.fre_keys y hy'
  · intro y hy
    have hymem : y ∈ l1 ++ x :: l2 := by
      rcases List.mem_append.mp hy with h' | h' <;> simp [h']
    have hb := h.act_valid hymem
    have hyx : y ≠ x := by
      rcases List.mem_append.mp hy with h' | h'
      · exact fun hc => hx_l1 (hc ▸ h')
      · exact fun hc => hx_l2 (hc ▸ h')
    by_cases hyp : y = (readSlot s x).prev
    · rw [hyp, hpxread (by rw [← hyp]; omega)]
    · by_cases hyn : y = (readSlot s x).next
      · rw [hyn, hnxread (by rw [← hyn]; omega)]
      · rw [hother y hb.1 hyx hyp hyn]

/-! ## Branch equations for `inserirOrdenado` -/

theorem inserirOrdenado_dup {s : FS} {d : Dados}
    (h : (pesquisa s d.chave).isSome) : inserirOrdenado s d = s := by
  simp [inserirOrdenado, h]

theorem inserirOrdenado_full {s : FS} {d : Dados} (h : s.cab.free = -1) :
    inserirOrdenado s d = s := by
  unfold inserirOrdenado
  split
  · rfl
  · simp [h]

theorem inserirOrdenado_eq_empty {s : FS} {d : Dados}
    (hdup : pesquisa s d.chave = none) (hfree : s.cab.free ≠ -1)
    (hfirst : s.cab.first = -1) :
    inserirOrdenado s d =
      { cab := { quant := s.cab.quant + 1,
                 first := s.cab.free,
                 last := s.cab.free,
                 free := (readSlot s s.cab.free).next,
                 tam := s.cab.tam },
        slots := (writeSlot s s.cab.free
          { next := -1, prev := -1, reg := d }).slots } := by
  simp [inserirOrdenado, hdup, hfree, hfirst]

theorem inserirOrdenado_eq_head {s : FS} {d : Dados}
    (hdup : pesquisa s d.chave = none) (hfree : s.cab.free ≠ -1)
    (hfirst : s.cab.first ≠ -1)
    (hat : (buscaPos s d.chave (s.slots.length + 1) (-1) s.cab.first).2 =
      s.cab.first) :
    inserirOrdenado s d =
      { cab := { quant := s.cab.quant + 1,
                 first := s.cab.free,
                 last := s.cab.last,
                 free := (readSlot s s.cab.free).next,
                 tam := s.cab.tam },
        slots := (writeSlot (writeSlot s s.cab.first
            { readSlot s s.cab.first with prev := s.cab.free })
          s.cab.free
          { next := s.cab.first, prev := -1, reg := d }).slots } := by
  simp [inserirOrdenado, hdup, hfree, hfirst, hat]

theorem inserirOrdenado_eq_tail {s : FS} {d : Dados}
    (hdup : pesquisa s d.chave = none) (hfree : s.cab.free ≠ -1)
    (hfirst : s.cab.first ≠ -1)
    (hat : (buscaPos s d.chave (s.slots.length + 1) (-1) s.cab.first).2 = -1) :
    inserirOrdenado s d =
      { cab := { quant := s.cab.quant + 1,
                 first := s.cab.first,
                 last := s.cab.free,
                 free := (readSlot s s.cab.free).next,
                 tam := s.cab.tam },
        slots := (writeSlot (writeSlot s s.cab.last
            { readSlot s s.cab.last with next := s.cab.free })
          s.cab.free
          { next := -1, prev := s.cab.last, reg := d }).slots } := by
  simp [inserirOrdenado, hdup, hfree, hfirst, hat]
  intro hc
  exact absurd hc.symm hfirst

theorem inserirOrdenado_eq_mid {s : FS} {d : Dados}
    (hdup : pesquisa s d.chave = none) (hfree : s.cab.free ≠ -1)
    (hfirst : s.cab.first ≠ -1)
    (hat_ne : (buscaPos s d.chave (s.slots.length + 1) (-1) s.cab.first).2 ≠
      s.cab.first)
    (hat2 : (buscaPos s d.chave (s.slots.length + 1) (-1) s.cab.first).2 ≠
      -1) :
    inserirOrdenado s d =
      { cab := { quant := s.cab.quant + 1,
                 first := s.cab.first,
                 last := s.cab.last,
                 free := (readSlot s s.cab.free).next,
                 tam := s.cab.tam },
        slots := (writeSlot (writeSlot (writeSlot s
            (buscaPos s d.chave (s.slots.length + 1) (-1) s.cab.first).1
            { readSlot s
                (buscaPos s d.chave (s.slots.length + 1) (-1) s.cab.first).1
              with next := s.cab.free })
          (buscaPos s d.chave (s.slots.length + 1) (-1) s.cab.first).2
          { readSlot (writeSlot s
              (buscaPos s d.chave (s.slots.length + 1) (-1) s.cab.first).1
              { readSlot s
                  (buscaPos s d.chave (s.slots.length + 1) (-1) s.cab.first).1
                with next := s.cab.free })
              (buscaPos s d.chave (s.slots.length + 1) (-1) s.cab.first).2
            with prev := s.cab.free })
          s.cab.free
          { next := (buscaPos s d.chave (s.slots.length + 1) (-1)
              s.cab.first).2,
            prev := (buscaPos s d.chave (s.slots.length + 1) (-1)
              s.cab.first).1,
            reg := d }).slots } := by
  simp [inserirOrdenado, hdup, hfree, hfirst, hat_ne, hat2]

/-- A successful `inserirOrdenado` pops the free-chain head and splices it
between the prefix of active nodes whose keys are at most `d.chave` and the
rest of the chain; records of old active slots are untouched. -/
theorem chainInv_inserirOrdenado {s : FS} {act fre : List Int}
    (h : ChainInv s act fre) {d : Dados}
    (hdup : pesquisa s d.chave = none) (hfree : s.cab.free ≠ -1) :
    ∃ fre' L1 L2, fre = s.cab.free :: fre' ∧ act = L1 ++ L2 ∧
      (∀ y ∈ L1, (readSlot s y).reg.chave ≤ d.chave) ∧
      (L2 = [] ∨ d.chave < (readSlot s (L2.headD (-1))).reg.chave) ∧
      ChainInv (inserirOrdenado s d) (L1 ++ s.cab.free :: L2) fre' ∧
      (∀ y ∈ act, (readSlot (inserirOrdenado s d) y).reg =
        (readSlot s y).reg) ∧
      (readSlot (inserirOrdenado s d) s.cab.free).reg = d := by
  obtain ⟨f0, fre', rfl⟩ : ∃ f0 fre', fre = f0 :: fre' := by
    cases fre with
    | nil => exact absurd (show s.cab.free = -1 from h.fre_ch) hfree
    | cons a t => exact ⟨a, t, rfl⟩
  have hf0 : s.cab.free = f0 := h.fre_ch.1
  subst hf0
  have hfv : 1 ≤ s.cab.free ∧ s.cab.free ≤ (s.slots.length : Int) :=
    h.fre_valid (List.mem_cons_self _ _)
  have hfnact : s.cab.free ∉ act := fun hx =>
    h.disj hx (List.mem_cons_self _ _)
  have hfre'_val : ∀ x ∈ fre', 1 ≤ x ∧ x ≤ (s.slots.length : Int) :=
    fun x hx => h.fre_valid (List.mem_cons_of_mem _ hx)
  have hfre'_ne : ∀ x ∈ fre', x ≠ s.cab.free := fun x hx hc =>
    (List.nodup_cons.mp h.fre_nodup).1 (hc ▸ hx)
  have hfre'_tail : nextChain s (readSlot s s.cab.free).next fre' (-1) :=
    h.fre_ch.2
  by_cases hfirst : s.cab.first = -1
  · -- empty active list: identical to an append insert on the empty list
    have hact : act = [] := by
      cases act with
      | nil => rfl
      | cons c t =>
        have hc : s.cab.first = c := h.fwd.1
        have := h.act_valid (List.mem_cons_self c t)
        omega
    subst hact
    have hlast : s.cab.last = -1 := h.bwd
    have heqI : inserirOrdenado s d = inserir s d := by
      rw [inserirOrdenado_eq_empty hdup hfree hfirst,
          inserir_eq_empty hdup hfree hlast, hlast, if_pos hfirst]
    obtain ⟨fre2, hfre2, hinv, hregs, hreg⟩ := chainInv_inserir h hdup hfree
    have hfre2' : fre2 = fre' := ((List.cons.injEq _ _ _ _).mp hfre2).2.symm
    rw [hfre2'] at hinv
    refine ⟨fre', [], [], rfl, rfl, by simp, Or.inl rfl, ?_, ?_, ?_⟩
    · rw [heqI]
      exact hinv
    · simp
    · rw [heqI]
      exact hreg
  · -- nonempty active list
    have hact_ne : act ≠ [] := by
      cases act with
      | nil => exact absurd (show s.cab.first = -1 from h.fwd) hfirst
      | cons _ _ => simp
    have hlen_act : act.length ≤ s.slots.length + 1 := by
      have := h.length_add
      omega
    obtain ⟨L1, L2, heq, hL1, hL2, hres⟩ :=
      @buscaPos_spec s d.chave act s.cab.first (-1) (s.slots.length + 1)
        h.fwd (fun y hy => h.act_ne_neg hy) hlen_act
    subst heq
    have hp2 : (buscaPos s d.chave (s.slots.length + 1) (-1) s.cab.first).2 =
        L2.headD (-1) := by rw [hres]
    have hp1 : (buscaPos s d.chave (s.slots.length + 1) (-1) s.cab.first).1 =
        L1.getLastD (-1) := by rw [hres]
    have hL1le : ∀ y ∈ L1, (readSlot s y).reg.chave ≤ d.chave := by
      intro y hy
      have := hL1 y hy
      omega
    have hL2gt : L2 = [] ∨ d.chave < (readSlot s (L2.headD (-1))).reg.chave :=
      hL2
    have hL1_val : ∀ y ∈ L1, 1 ≤ y ∧ y ≤ (s.slots.length : Int) :=
      fun y hy => h.act_valid (by simp [hy])
    have hL2_val : ∀ y ∈ L2, 1 ≤ y ∧ y ≤ (s.slots.length : Int) :=
      fun y hy => h.act_valid (by simp [hy])
    obtain ⟨hndL1, hndL2, hdisj12⟩ := List.nodup_append.mp h.act_nodup
    have hfnL1 : s.cab.free ∉ L1 := fun hx => hfnact (by simp [hx])
    have hfnL2 : s.cab.free ∉ L2 := fun hx => hfnact (by simp [hx])
    by_cases hL1e : L1 = []
    · -- head insert
      subst hL1e
      have hL2ne : L2 ≠ [] := by simpa using hact_ne
      rcases L2 with _ | ⟨c0, tl⟩
      · exact absurd rfl hL2ne
      have hc0 : s.cab.first = c0 := by
        have := nextChain_head h.fwd
        simpa using this
      have hc0_val := hL2_val c0 (by simp)
      have hc0_nin_tl : c0 ∉ tl := (List.nodup_cons.mp hndL2).1
      have hfne_c0 : s.cab.free ≠ c0 := fun hc => hfnL2 (by simp [hc])
      have hat : (buscaPos s d.chave (s.slots.length + 1) (-1)
          s.cab.first).2 = s.cab.first := by
        rw [hp2, hc0]
        rfl
      have heqE := inserirOrdenado_eq_head hdup hfree hfirst hat
      have hlen1 : (writeSlot s s.cab.first
          { readSlot s s.cab.first with prev := s.cab.free }).slots.length =
          s.slots.length := writeSlot_length _ _ _
      have hrd_free : readSlot (inserirOrdenado s d) s.cab.free =
          ⟨s.cab.first, -1, d⟩ := by
        rw [heqE, readSlot_mkcab,
          readSlot_writeSlot_self _ hfv.1 (by rw [hlen1]; exact hfv.2)]
      have hrd_c0 : readSlot (inserirOrdenado s d) c0 =
          { readSlot s c0 with prev := s.cab.free } := by
        rw [heqE, readSlot_mkcab,
          readSlot_writeSlot_ne _ hfv.1 (by omega) (Ne.symm hfne_c0), hc0,
          readSlot_writeSlot_self _ (by omega) (by omega)]
      have hrd_other : ∀ y, 1 ≤ y → y ≠ c0 → y ≠ s.cab.free →
          readSlot (inserirOrdenado s d) y = readSlot s y := by
        intro y hy hyc hyf
        rw [heqE, readSlot_mkcab, hc0,
          readSlot_two_writes (by omega) hfv.1 hy hyc hyf]
      have hlen : (inserirOrdenado s d).slots.length = s.slots.length := by
        rw [heqE]
        show (writeSlot _ _ _).slots.length = _
        rw [writeSlot_length, hlen1]
      have hregs : ∀ y ∈ [] ++ c0 :: tl,
          (readSlot (inserirOrdenado s d) y).reg = (readSlot s y).reg := by
        intro y hy
        simp only [List.nil_append] at hy
        rcases List.mem_cons.mp hy with rfl | hy'
        · rw [hrd_c0]
        · have hb := hL2_val y (by simp [hy'])
          have hyc : y ≠ c0 := fun hc => hc0_nin_tl (hc ▸ hy')
          have hyf : y ≠ s.cab.free := fun hc => hfnL2 (hc ▸ (by simp [hy']))
          rw [hrd_other y hb.1 hyc hyf]
      refine ⟨fre', [], c0 :: tl, rfl, rfl, by simp, hL2gt,
        ⟨?_, ?_, ?_, ?_, ?_, ?_, ?_⟩, hregs, by rw [hrd_free]⟩
      · rw [heqE]
        show s.cab.tam = _
        show _ = ((writeSlot _ _ _).slots.length : Int)
        rw [writeSlot_length, hlen1]
        exact h.tam_eq
      · rw [allCursors_eq_of_length hlen]
        have p1 : (([] ++ s.cab.free :: c0 :: tl) ++ fre').Perm
            (s.cab.free :: (([] ++ c0 :: tl) ++ fre')) := by
          simp
        refine p1.trans ?_
        have p2 : (([] ++ c0 :: tl) ++ s.cab.free :: fre').Perm
            (s.cab.free :: (([] ++ c0 :: tl) ++ fre')) := List.perm_middle
        exact p2.symm.trans h.perm
      · have hq := h.quant_eq
        rw [heqE]
        show s.cab.quant + 1 = _
        simp at hq ⊢
        omega
      · have hcf : (inserirOrdenado s d).cab.first = s.cab.free := by
          rw [heqE]
        rw [hcf]
        show nextChain _ _ (s.cab.free :: c0 :: tl) _
        refine ⟨rfl, ?_⟩
        rw [hrd_free]
        show nextChain _ s.cab.first _ _
        rw [hc0]
        have hchn : nextChain s c0 (c0 :: tl) (-1) := by
          have hf := h.fwd
          rw [hc0] at hf
          exact hf
        refine nextChain_congr (fun y hy => ?_) hchn
        rcases List.mem_cons.mp hy with rfl | hy'
        · rw [hrd_c0]
        · have hb := hL2_val y (by simp [hy'])
          have hyc : y ≠ c0 := fun hc => hc0_nin_tl (hc ▸ hy')
          have hyf : y ≠ s.cab.free := fun hc =>
            hfnL2 (hc ▸ (by simp [hy']))
          rw [hrd_other y hb.1 hyc hyf]
      · have hcl : (inserirOrdenado s d).cab.last = s.cab.last := by
          rw [heqE]
        rw [hcl]
        have hrevs : ([] ++ s.cab.free :: c0 :: tl).reverse =
            (tl.reverse ++ [c0]) ++ [s.cab.free] := by simp
        rw [hrevs, prevChain_snoc]
        constructor
        · have hb := h.bwd
          have hbr : (([] ++ c0 :: tl : List Int)).reverse =
              tl.reverse ++ [c0] := by simp
          rw [hbr] at hb
          have hsn := prevChain_snoc.mp hb
          refine prevChain_snoc.mpr ⟨?_, by rw [hrd_c0]⟩
          refine prevChain_congr (fun y hy => ?_) hsn.1
          have hytl : y ∈ tl := List.mem_reverse.mp hy
          have hb' := hL2_val y (by simp [hytl])
          have hyc : y ≠ c0 := fun hc => hc0_nin_tl (hc ▸ hytl)
          have hyf : y ≠ s.cab.free := fun hc =>
            hfnL2 (hc ▸ (by simp [hytl]))
          rw [hrd_other y hb'.1 hyc hyf]
        · rw [hrd_free]
      · have hcf : (inserirOrdenado s d).cab.free =
            (readSlot s s.cab.free).next := by rw [heqE]
        rw [hcf]
        refine nextChain_congr (fun y hy => ?_) hfre'_tail
        have hb := hfre'_val y hy
        have hyc : y ≠ c0 := fun hc =>
          h.disj (hc ▸ (by simp : c0 ∈ [] ++ c0 :: tl))
            (List.mem_cons_of_mem _ hy)
        rw [hrd_other y hb.1 hyc (hfre'_ne y hy)]
      · intro c hc
        have hb := hfre'_val c hc
        have hyc : c ≠ c0 := fun h' =>
          h.disj (h' ▸ (by simp : c0 ∈ [] ++ c0 :: tl))
            (List.mem_cons_of_mem _ hc)
        rw [hrd_other c hb.1 hyc (hfre'_ne c hc)]
        exact h.fre_keys c (List.mem_cons_of_mem _ hc)
    · by_cases hL2e : L2 = []
      · -- tail insert: identical to an append insert
        subst hL2e
        have hlast_ne : s.cab.last ≠ -1 := by
          have hh := prevChain_head h.bwd
          rw [show (L1 ++ ([] : List Int)).reverse = L1.reverse by simp]
            at hh
          rw [headD_reverse] at hh
          have := hL1_val _ (getLastD_mem hL1e (-1))
          omega
        have hat : (buscaPos s d.chave (s.slots.length + 1) (-1)
            s.cab.first).2 = -1 := by rw [hp2]; rfl
        have heqI : inserirOrdenado s d = inserir s d := by
          rw [inserirOrdenado_eq_tail hdup hfree hfirst hat,
              inserir_eq_nonempty hdup hfree hlast_ne, if_neg hfirst]
        obtain ⟨fre2, hfre2, hinv, hregs, hreg⟩ :=
          chainInv_inserir h hdup hfree
        have hfre2' : fre2 = fre' := ((List.cons.injEq _ _ _ _).mp hfre2).2.symm
        rw [hfre2'] at hinv
        refine ⟨fre', L1, [], rfl, rfl, hL1le, Or.inl rfl, ?_, ?_, ?_⟩
        · rw [heqI]
          have : L1 ++ [s.cab.free] = (L1 ++ []) ++ [s.cab.free] := by simp
          rw [show L1 ++ s.cab.free :: ([] : List Int) = (L1 ++ []) ++
            [s.cab.free] by simp]
          exact hinv
        · rw [heqI]
          exact hregs
        · rw [heqI]
          exact hreg
      · -- middle insert
        rcases L2 with _ | ⟨nv, tl⟩
        · exact absurd rfl hL2e
        rcases List.eq_nil_or_concat L1 with hnil | ⟨dl, pv, hL1eq⟩
        · exact absurd hnil hL1e
        rw [List.concat_eq_append] at hL1eq
        subst hL1eq
        have hpv_mem : pv ∈ dl ++ [pv] := by simp
        have hnv_mem : nv ∈ nv :: tl := by simp
        have hpv_val := hL1_val pv hpv_mem
        have hnv_val := hL2_val nv hnv_mem
        have hpv_ne_nv : pv ≠ nv := fun hc => hdisj12 hpv_mem (hc ▸ hnv_mem)
        have hfne_pv : s.cab.free ≠ pv := fun hc => hfnL1 (hc ▸ hpv_mem)
        have hfne_nv : s.cab.free ≠ nv := fun hc => hfnL2 (hc ▸ hnv_mem)
        have hnv_nin_tl : nv ∉ tl := (List.nodup_cons.mp hndL2).1
        have hpv_nin_dl : pv ∉ dl := not_mem_of_snoc_nodup hndL1
        have hp1' : (buscaPos s d.chave (s.slots.length + 1) (-1)
            s.cab.first).1 = pv := by
          rw [hp1, getLastD_append_cons]
          rfl
        have hp2' : (buscaPos s d.chave (s.slots.length + 1) (-1)
            s.cab.first).2 = nv := by
          rw [hp2]
          rfl
        have hat2 : (buscaPos s d.chave (s.slots.length + 1) (-1)
            s.cab.first).2 ≠ -1 := by
          rw [hp2']
          omega
        have hfirstL1 : s.cab.first ∈ dl ++ [pv] := by
          rw [nextChain_head h.fwd]
          cases dl <;> simp
        have hat_ne : (buscaPos s d.chave (s.slots.length + 1) (-1)
            s.cab.first).2 ≠ s.cab.first := by
          rw [hp2']
          intro hc
          exact hdisj12 (hc ▸ hfirstL1) hnv_mem
        have heqE := inserirOrdenado_eq_mid hdup hfree hfirst hat_ne hat2
        rw [hp1', hp2',
          readSlot_writeSlot_ne _ hpv_val.1 hnv_val.1 (Ne.symm hpv_ne_nv)]
          at heqE
        -- reads
        have hlen1 : (writeSlot s pv
            { readSlot s pv with next := s.cab.free }).slots.length =
            s.slots.length := writeSlot_length _ _ _
        have hlen2 : (writeSlot (writeSlot s pv
            { readSlot s pv with next := s.cab.free }) nv
            { readSlot s nv with prev := s.cab.free }).slots.length =
            s.slots.length := by rw [writeSlot_length, hlen1]
        have hrd_free : readSlot (inserirOrdenado s d) s.cab.free =
            ⟨nv, pv, d⟩ := by
          rw [heqE, readSlot_mkcab,
            readSlot_writeSlot_self _ hfv.1 (by rw [hlen2]; exact hfv.2)]
        have hrd_pv : readSlot (inserirOrdenado s d) pv =
            { readSlot s pv with next := s.cab.free } := by
          rw [heqE, readSlot_mkcab,
            readSlot_writeSlot_ne _ hfv.1 hpv_val.1 hfne_pv.symm,
            readSlot_writeSlot_ne _ hnv_val.1 hpv_val.1 hpv_ne_nv,
            readSlot_writeSlot_self _ hpv_val.1 hpv_val.2]
        have hrd_nv : readSlot (inserirOrdenado s d) nv =
            { readSlot s nv with prev := s.cab.free } := by
          rw [heqE, readSlot_mkcab,
            readSlot_writeSlot_ne _ hfv.1 hnv_val.1 hfne_nv.symm,
            readSlot_writeSlot_self _ hnv_val.1 (by rw [hlen1]; exact hnv_val.2)]
        have hrd_other : ∀ y, 1 ≤ y → y ≠ pv → y ≠ nv → y ≠ s.cab.free →
            readSlot (inserirOrdenado s d) y = readSlot s y := by
          intro y hy hyp hyn hyf
          rw [heqE, readSlot_mkcab,
            readSlot_writeSlot_ne _ hfv.1 hy hyf,
            readSlot_writeSlot_ne _ hnv_val.1 hy hyn,
            readSlot_writeSlot_ne _ hpv_val.1 hy hyp]
        have hlen : (inserirOrdenado s d).slots.length = s.slots.length := by
          rw [heqE]
          show (writeSlot _ _ _).slots.length = _
          rw [writeSlot_length, hlen2]
        -- decompose the old chains
        obtain ⟨m, hchainL1, hm⟩ := nextChain_append.mp h.fwd
        have hm_nv : m = nv := hm.1
        rw [hm_nv] at hchainL1
        have htlchain : nextChain s (readSlot s nv).next tl (-1) := hm.2
        have hsnL1 := nextChain_snoc.mp hchainL1
        have hbwd := h.bwd
        rw [show ((dl ++ [pv]) ++ nv :: tl).reverse =
          (tl.reverse ++ [nv]) ++ (dl ++ [pv]).reverse by simp] at hbwd
        obtain ⟨m2, hchainL2r, hm2⟩ := prevChain_append.mp hbwd
        have hm2_pv : m2 = pv := by
          have := prevChain_head hm2
          rw [this, headD_reverse, getLastD_append_cons]
          rfl
        rw [hm2_pv] at hchainL2r hm2
        have hpvrev : prevChain s pv (dl ++ [pv]).reverse (-1) := hm2
        have hsnL2 := prevChain_snoc.mp hchainL2r
        -- dl/tl congruence helpers
        have hdl_other : ∀ y ∈ dl,
            readSlot (inserirOrdenado s d) y = readSlot s y := by
          intro y hy
          have hb := hL1_val y (by simp [hy])
          have hyp : y ≠ pv := fun hc => hpv_nin_dl (hc ▸ hy)
          have hyn : y ≠ nv := fun hc =>
            hdisj12 (by simp [hy] : y ∈ dl ++ [pv]) (hc ▸ hnv_mem)
          have hyf : y ≠ s.cab.free := fun hc => hfnL1 (hc ▸ (by simp [hy]))
          exact hrd_other y hb.1 hyp hyn hyf
        have htl_other : ∀ y ∈ tl,
            readSlot (inserirOrdenado s d) y = readSlot s y := by
          intro y hy
          have hb := hL2_val y (by simp [hy])
          have hyn : y ≠ nv := fun hc => hnv_nin_tl (hc ▸ hy)
          have hyp : y ≠ pv := fun hc =>
            hdisj12 hpv_mem (hc ▸ (by simp [hy] : y ∈ nv :: tl))
          have hyf : y ≠ s.cab.free := fun hc => hfnL2 (hc ▸ (by simp [hy]))
          exact hrd_other y hb.1 hyp hyn hyf
        have hregs : ∀ y ∈ (dl ++ [pv]) ++ nv :: tl,
            (readSlot (inserirOrdenado s d) y).reg = (readSlot s y).reg := by
          intro y hy
          by_cases hyp : y = pv
          · rw [hyp, hrd_pv]
          · by_cases hyn : y = nv
            · rw [hyn, hrd_nv]
            · rcases List.mem_append.mp hy with h1 | h2
              · rcases List.mem_append.mp h1 with hdl | hpv1
                · rw [hdl_other y hdl]
                · exact absurd (by simpa using hpv1) hyp
              · rcases List.mem_cons.mp h2 with h3 | h4
                · exact absurd h3 hyn
                · rw [htl_other y h4]
        refine ⟨fre', dl ++ [pv], nv :: tl, rfl, rfl, hL1le, hL2gt,
          ⟨?_, ?_, ?_, ?_, ?_, ?_, ?_⟩, hregs, by rw [hrd_free]⟩
        · rw [heqE]
          show s.cab.tam = _
          show _ = ((writeSlot _ _ _).slots.length : Int)
          rw [writeSlot_length, hlen2]
          exact h.tam_eq
        · rw [allCursors_eq_of_length hlen]
          have p1 : ((dl ++ [pv]) ++ s.cab.free :: nv :: tl).Perm
              (s.cab.free :: ((dl ++ [pv]) ++ nv :: tl)) := List.perm_middle
          have p2 : (((dl ++ [pv]) ++ nv :: tl) ++ s.cab.free :: fre').Perm
              (s.cab.free :: (((dl ++ [pv]) ++ nv :: tl) ++ fre')) :=
            List.perm_middle
          exact ((p1.append_right fre').trans p2.symm).trans h.perm
        · have hq := h.quant_eq
          rw [heqE]
          show s.cab.quant + 1 = _
          simp at hq ⊢
          omega
        · have hcf : (inserirOrdenado s d).cab.first = s.cab.first := by
            rw [heqE]
          rw [hcf]
          refine nextChain_append.mpr ⟨s.cab.free, ?_, ?_⟩
          · refine nextChain_snoc.mpr ⟨?_, by rw [hrd_pv]⟩
            exact nextChain_congr (fun y hy => by rw [hdl_other y hy]) hsnL1.1
          · refine ⟨rfl, ?_⟩
            rw [hrd_free]
            show nextChain _ nv _ _
            refine ⟨rfl, ?_⟩
            rw [hrd_nv]
            show nextChain _ (readSlot s nv).next _ _
            exact nextChain_congr (fun y hy => by rw [htl_other y hy])
              htlchain
        · have hcl : (inserirOrdenado s d).cab.last = s.cab.last := by
            rw [heqE]
          rw [hcl]
          rw [show ((dl ++ [pv]) ++ s.cab.free :: nv :: tl).reverse =
            (tl.reverse ++ [nv]) ++ s.cab.free :: (dl ++ [pv]).reverse
            by simp]
          refine prevChain_append.mpr ⟨s.cab.free, ?_, ?_⟩
          · refine prevChain_snoc.mpr ⟨?_, by rw [hrd_nv]⟩
            refine prevChain_congr (fun y hy => ?_) hsnL2.1
            rw [htl_other y (List.mem_reverse.mp hy)]
          · refine ⟨rfl, ?_⟩
            rw [hrd_free]
            show prevChain _ pv _ _
            refine prevChain_congr (fun y hy => ?_) hpvrev
            have hyl1 : y ∈ dl ++ [pv] := List.mem_reverse.mp hy
            by_cases hyp : y = pv
            · rw [hyp, hrd_pv]
            · have : y ∈ dl := by
                rcases List.mem_append.mp hyl1 with h' | h'
                · exact h'
                · exact absurd (by simpa using h') hyp
              rw [hdl_other y this]
        · have hcf : (inserirOrdenado s d).cab.free =
              (readSlot s s.cab.free).next := by rw [heqE]
          rw [hcf]
          refine nextChain_congr (fun y hy => ?_) hfre'_tail
          have hb := hfre'_val y hy
          have hyfre : y ∈ s.cab.free :: fre' := List.mem_cons_of_mem _ hy
          have hyp : y ≠ pv := fun hc =>
            h.disj (hc ▸ (by simp : pv ∈ (dl ++ [pv]) ++ nv :: tl)) hyfre
          have hyn : y ≠ nv := fun hc =>
            h.disj (hc ▸ (by simp : nv ∈ (dl ++ [pv]) ++ nv :: tl)) hyfre
          rw [hrd_other y hb.1 hyp hyn (hfre'_ne y hy)]
        · intro c hc
          have hb := hfre'_val c hc
          have hyfre : c ∈ s.cab.free :: fre' := List.mem_cons_of_mem _ hc
          have hyp : c ≠ pv := fun h' =>
            h.disj (h' ▸ (by simp : pv ∈ (dl ++ [pv]) ++ nv :: tl)) hyfre
          have hyn : c ≠ nv := fun h' =>
            h.disj (h' ▸ (by simp : nv ∈ (dl ++ [pv]) ++ nv :: tl)) hyfre
          rw [hrd_other c hb.1 hyp hyn (hfre'_ne c hc)]
          exact h.fre_keys c hyfre

/-! ## `remover` against the invariant -/

theorem remover_none {s : FS} {act fre : List Int} {k : Int}
    (h : ChainInv s act fre)
    (hk : ∀ y ∈ act, (readSlot s y).reg.chave ≠ k) :
    remover s k = none :=
  removerLoop_none h.fwd (fun y hy => h.act_ne_neg hy)
    (by have := h.length_add; omega) hk

theorem remover_found {s : FS} {act fre : List Int} {k : Int}
    {l1 l2 : List Int} {x : Int}
    (h : ChainInv s act fre) (hsplit : act = l1 ++ x :: l2)
    (hk1 : ∀ y ∈ l1, (readSlot s y).reg.chave ≠ k)
    (hx : (readSlot s x).reg.chave = k) :
    remover s k = some (removerAt s x) := by
  subst hsplit
  exact removerLoop_found h.fwd (fun y hy => h.act_ne_neg hy)
    (by have := h.length_add; omega) hk1 hx

/-! ## The invariant holds in every reachable state -/

theorem reachable_inv {s : FS} (h : Reachable s) : Inv s := by
  induction h with
  | init n hn => exact ⟨[], allCursors _, chainInv_inicializar n hn⟩
  | @ins s0 d _ ih =>
    obtain ⟨act, fre, hci⟩ := ih
    by_cases hdup : (pesquisa s0 d.chave).isSome
    · rw [inserir_dup hdup]
      exact ⟨act, fre, hci⟩
    · by_cases hfree : s0.cab.free = -1
      · rw [inserir_full hfree]
        exact ⟨act, fre, hci⟩
      · obtain ⟨fre', -, hinv, -, -⟩ :=
          chainInv_inserir hci (Option.not_isSome_iff_eq_none.mp hdup) hfree
        exact ⟨_, _, hinv⟩
  | @insOrd s0 d _ ih =>
    obtain ⟨act, fre, hci⟩ := ih
    by_cases hdup : (pesquisa s0 d.chave).isSome
    · rw [inserirOrdenado_dup hdup]
      exact ⟨act, fre, hci⟩
    · by_cases hfree : s0.cab.free = -1
      · rw [inserirOrdenado_full hfree]
        exact ⟨act, fre, hci⟩
      · obtain ⟨fre', L1, L2, -, -, -, -, hinv, -, -⟩ :=
          chainInv_inserirOrdenado hci
            (Option.not_isSome_iff_eq_none.mp hdup) hfree
        exact ⟨_, _, hinv⟩
  | @rem s0 s1 k _ hrm ih =>
    obtain ⟨act, fre, hci⟩ := ih
    by_cases hex : ∃ x ∈ act, (readSlot s0 x).reg.chave = k
    · obtain ⟨l1, x, l2, hsplit, hl1, hx⟩ :=
        exists_first_split (fun c => (readSlot s0 c).reg.chave = k) act hex
      have hfound := remover_found hci hsplit hl1 hx
      rw [hfound] at hrm
      obtain rfl := (Option.some.injEq _ _).mp hrm
      obtain ⟨hinv, -⟩ := chainInv_removerAt hci hsplit
      exact ⟨_, _, hinv⟩
    · push_neg at hex
      rw [remover_none hci hex] at hrm
      exact Option.noConfusion hrm

/-! ## The ordering invariant under sorted-only insertion -/

theorem chainKeys_append (s : FS) (l1 l2 : List Int) :
    chainKeys s (l1 ++ l2) = chainKeys s l1 ++ chainKeys s l2 := by
  unfold chainKeys
  rw [List.map_append]

theorem reachableSorted_inv {s : FS} (h : ReachableSorted s) :
    ∃ act fre, ChainInv s act fre ∧
      (chainKeys s act).Pairwise (· < ·) := by
  induction h with
  | init n hn =>
    exact ⟨[], allCursors _, chainInv_inicializar n hn, by simp [chainKeys]⟩
  | @insOrd s0 d _ ih =>
    obtain ⟨act, fre, hci, hsorted⟩ := ih
    by_cases hdup : (pesquisa s0 d.chave).isSome
    · rw [inserirOrdenado_dup hdup]
      exact ⟨act, fre, hci, hsorted⟩
    · by_cases hfree : s0.cab.free = -1
      · rw [inserirOrdenado_full hfree]
        exact ⟨act, fre, hci, hsorted⟩
      · have hdup' := Option.not_isSome_iff_eq_none.mp hdup
        obtain ⟨fre', L1, L2, hfre, hact, hL1le, hL2gt, hinv, hregs, hreg⟩ :=
          chainInv_inserirOrdenado hci hdup' hfree
        refine ⟨_, _, hinv, ?_⟩
        subst hact
        have hkne := (pesquisa_eq_none_iff hci).mp hdup'
        have hkey_eq : ∀ y ∈ L1 ++ L2,
            (readSlot (inserirOrdenado s0 d) y).reg.chave =
            (readSlot s0 y).reg.chave := fun y hy => by rw [hregs y hy]
        have hkeys : chainKeys (inserirOrdenado s0 d)
            (L1 ++ s0.cab.free :: L2) =
            chainKeys s0 L1 ++ d.chave :: chainKeys s0 L2 := by
          unfold chainKeys
          rw [List.map_append, List.map_cons]
          congr 1
          · exact List.map_congr_left fun y hy => hkey_eq y (by simp [hy])
          · congr 1
            · rw [hreg]
            · exact List.map_congr_left fun y hy => hkey_eq y (by simp [hy])
        rw [hkeys]
        rw [chainKeys_append] at hsorted
        obtain ⟨hs1, hs2, hcross⟩ := List.pairwise_append.mp hsorted
        refine List.pairwise_append.mpr ⟨hs1, ?_, ?_⟩
        · refine List.pairwise_cons.mpr ⟨?_, hs2⟩
          intro b hb
          obtain ⟨y, hy, rfl⟩ := List.mem_map.mp hb
          rcases hL2gt with hL2e | hgt
          · rw [hL2e] at hy
            simp at hy
          · rcases L2 with _ | ⟨nv, tl⟩
            · simp at hy
            · simp only [List.headD_cons] at hgt
              rcases List.mem_cons.mp hy with rfl | hytl
              · exact hgt
              · have hnvlt : (readSlot s0 nv).reg.chave <
                    (readSlot s0 y).reg.chave := by
                  have hcons := List.pairwise_cons.mp
                    (show ((readSlot s0 nv).reg.chave ::
                      chainKeys s0 tl).Pairwise (· < ·) from hs2)
                  exact hcons.1 _ (List.mem_map_of_mem _ hytl)
                exact lt_trans hgt hnvlt
        · intro a ha b hb
          rcases List.mem_cons.mp hb with rfl | hb'
          · obtain ⟨y, hy, rfl⟩ := List.mem_map.mp ha
            have hle := hL1le y hy
            have hne := hkne y (by simp [hy])
            omega
          · exact hcross a ha b hb'
  | @rem s0 s1 k _ hrm ih =>
    obtain ⟨act, fre, hci, hsorted⟩ := ih
    by_cases hex : ∃ x ∈ act, (readSlot s0 x).reg.chave = k
    · obtain ⟨l1, x, l2, hsplit, hl1, hx⟩ :=
        exists_first_split (fun c => (readSlot s0 c).reg.chave = k) act hex
      have hfound := remover_found hci hsplit hl1 hx
      rw [hfound] at hrm
      obtain rfl := (Option.some.injEq _ _).mp hrm
      obtain ⟨hinv, hregs⟩ := chainInv_removerAt hci hsplit
      refine ⟨_, _, hinv, ?_⟩
      have hkeys : chainKeys (removerAt s0 x) (l1 ++ l2) =
          chainKeys s0 (l1 ++ l2) := by
        unfold chainKeys
        exact List.map_congr_left fun y hy => by rw [hregs y hy]
      rw [hkeys]
      subst hsplit
      have hsub : (chainKeys s0 (l1 ++ l2)).Sublist
          (chainKeys s0 (l1 ++ x :: l2)) := by
        unfold chainKeys
        exact ((List.sublist_cons_self x l2).append_left l1).map _
      exact hsorted.sublist hsub
    · push_neg at hex
      rw [remover_none hci hex] at hrm
      exact Option.noConfusion hrm

/-! ## No active record carries the sentinel key, when no caller inserts it -/

theorem reachableNZ_inv {s : FS} (h : ReachableNZ s) :
    ∃ act fre, ChainInv s act fre ∧
      ∀ y ∈ act, (readSlot s y).reg.chave ≠ -1 := by
  induction h with
  | init n hn =>
    exact ⟨[], allCursors _, chainInv_inicializar n hn, by simp⟩
  | @ins s0 d hdnz _ ih =>
    obtain ⟨act, fre, hci, hnz⟩ := ih
    by_cases hdup : (pesquisa s0 d.chave).isSome
    · rw [inserir_dup hdup]
      exact ⟨act, fre, hci, hnz⟩
    · by_cases hfree : s0.cab.free = -1
      · rw [inserir_full hfree]
        exact ⟨act, fre, hci, hnz⟩
      · obtain ⟨fre', -, hinv, hregs, hreg⟩ :=
          chainInv_inserir hci (Option.not_isSome_iff_eq_none.mp hdup) hfree
        refine ⟨_, _, hinv, ?_⟩
        intro y hy
        rcases List.mem_append.mp hy with hy' | hy'
        · rw [show (readSlot (inserir s0 d) y).reg = (readSlot s0 y).reg
            from hregs y hy']
          exact hnz y hy'
        · have : y = s0.cab.free := by simpa using hy'
          rw [this, show (readSlot (inserir s0 d) s0.cab.free).reg = d
            from hreg]
          exact hdnz
  | @insOrd s0 d hdnz _ ih =>
    obtain ⟨act, fre, hci, hnz⟩ := ih
    by_cases hdup : (pesquisa s0 d.chave).isSome
    · rw [inserirOrdenado_dup hdup]
      exact ⟨act, fre, hci, hnz⟩
    · by_cases hfree : s0.cab.free = -1
      · rw [inserirOrdenado_full hfree]
        exact ⟨act, fre, hci, hnz⟩
      · obtain ⟨fre', L1, L2, hfre, hact, -, -, hinv, hregs, hreg⟩ :=
          chainInv_inserirOrdenado hci
            (Option.not_isSome_iff_eq_none.mp hdup) hfree
        refine ⟨_, _, hinv, ?_⟩
        subst hact
        intro y hy
        simp only [List.mem_append, List.mem_cons] at hy
        rcases hy with hy' | hy' | hy'
        · rw [show (readSlot (inserirOrdenado s0 d) y).reg =
            (readSlot s0 y).reg from hregs y (by simp [hy'])]
          exact hnz y (by simp [hy'])
        · rw [hy', show (readSlot (inserirOrdenado s0 d) s0.cab.free).reg = d
            from hreg]
          exact hdnz
        · rw [show (readSlot (inserirOrdenado s0 d) y).reg =
            (readSlot s0 y).reg from hregs y (by simp [hy'])]
          exact hnz y (by simp [hy'])
  | @rem s0 s1 k _ hrm ih =>
    obtain ⟨act, fre, hci, hnz⟩ := ih
    by_cases hex : ∃ x ∈ act, (readSlot s0 x).reg.chave = k
    · obtain ⟨l1, x, l2, hsplit, hl1, hx⟩ :=
        exists_first_split (fun c => (readSlot s0 c).reg.chave = k) act hex
      have hfound := remover_found hci hsplit hl1 hx
      rw [hfound] at hrm
      obtain rfl := (Option.some.injEq _ _).mp hrm
      obtain ⟨hinv, hregs⟩ := chainInv_removerAt hci hsplit
      refine ⟨_, _, hinv, ?_⟩
      intro y hy
      rw [show (readSlot (removerAt s0 x) y).reg = (readSlot s0 y).reg
        from hregs y hy]
      subst hsplit
      refine hnz y ?_
      rcases List.mem_append.mp hy with hy' | hy' <;> simp [hy']
    · push_neg at hex
      rw [remover_none hci hex] at hrm
      exact Option.noConfusion hrm
/-! ## The claims -/

/-- C1: in every state reachable from `inicializar` (positive capacity)
by `inserir`/`inserirOrdenado`/`remover` calls, the active chain traversed
forward from `first` via `next` visits exactly `quant` cursors ending with
`next = -1`, starts at `first`, ends at `last`, and traversed backward from
`last` via `prev` visits the same cursors in reverse order ending with
`prev = -1`. -/
theorem active_chain_forward_backward {s : FS} (h : Reachable s) :
    ∃ cs : List Int, nextChain s s.cab.first cs (-1) ∧
      prevChain s s.cab.last cs.reverse (-1) ∧
      (cs.length : Int) = s.cab.quant ∧
      s.cab.first = cs.headD (-1) ∧ s.cab.last = cs.getLastD (-1) := by
  obtain ⟨act, fre, hci⟩ := reachable_inv h
  refine ⟨act, hci.fwd, hci.bwd, hci.quant_eq.symm, nextChain_head hci.fwd,
    ?_⟩
  have hh := prevChain_head hci.bwd
  rwa [headD_reverse] at hh

/-- Witness for C1 at the state reached by `inicializar 2` followed by one
`inserir`. -/
theorem active_chain_forward_backward_witness :
    ∃ cs : List Int,
      nextChain (inserir (inicializar 2) ⟨5, "A"⟩)
        (inserir (inicializar 2) ⟨5, "A"⟩).cab.first cs (-1) ∧
      prevChain (inserir (inicializar 2) ⟨5, "A"⟩)
        (inserir (inicializar 2) ⟨5, "A"⟩).cab.last cs.reverse (-1) ∧
      (cs.length : Int) = (inserir (inicializar 2) ⟨5, "A"⟩).cab.quant ∧
      (inserir (inicializar 2) ⟨5, "A"⟩).cab.first = cs.headD (-1) ∧
      (inserir (inicializar 2) ⟨5, "A"⟩).cab.last = cs.getLastD (-1) :=
  active_chain_forward_backward
    (Reachable.ins ⟨5, "A"⟩ (Reachable.init 2 (by norm_num)))

/-- C2: in every reachable state, every cursor in `1..capacity` lies on
exactly one of the active chain and the free chain. -/
theorem active_free_partition {s : FS} (h : Reachable s) :
    ∃ act fre : List Int, nextChain s s.cab.first act (-1) ∧
      nextChain s s.cab.free fre (-1) ∧
      (∀ c : Int, (1 ≤ c ∧ c ≤ s.cab.tam) ↔ (c ∈ act ∨ c ∈ fre)) ∧
      (∀ c : Int, ¬(c ∈ act ∧ c ∈ fre)) := by
  obtain ⟨act, fre, hci⟩ := reachable_inv h
  refine ⟨act, fre, hci.fwd, hci.fre_ch, ?_, ?_⟩
  · intro c
    constructor
    · intro hb
      have hc : c ∈ allCursors s := mem_allCursors.mpr
        ⟨hb.1, by rw [← hci.tam_eq]; exact hb.2⟩
      have := hci.perm.mem_iff.mpr hc
      simpa using this
    · intro hm
      have hc : c ∈ allCursors s :=
        hci.perm.mem_iff.mp (by simpa using hm)
      have := mem_allCursors.mp hc
      rw [hci.tam_eq]
      exact this
  · rintro c ⟨h1, h2⟩
    exact hci.disj h1 h2

/-- Witness for C2 at the state reached by `inicializar 2` followed by one
`inserir`. -/
theorem active_free_partition_witness :
    ∃ act fre : List Int,
      nextChain (inserir (inicializar 2) ⟨5, "A"⟩)
        (inserir (inicializar 2) ⟨5, "A"⟩).cab.first act (-1) ∧
      nextChain (inserir (inicializar 2) ⟨5, "A"⟩)
        (inserir (inicializar 2) ⟨5, "A"⟩).cab.free fre (-1) ∧
      (∀ c : Int, (1 ≤ c ∧ c ≤ (inserir (inicializar 2) ⟨5, "A"⟩).cab.tam) ↔
        (c ∈ act ∨ c ∈ fre)) ∧
      (∀ c : Int, ¬(c ∈ act ∧ c ∈ fre)) :=
  active_free_partition
    (Reachable.ins ⟨5, "A"⟩ (Reachable.init 2 (by norm_num)))

/-- C3: when every insertion used `inserirOrdenado` (deletions allowed), the
keys along the active chain from `first` to `last` are strictly
increasing. -/
theorem sorted_inserts_keys_increasing {s : FS} (h : ReachableSorted s) :
    ∃ cs : List Int, nextChain s s.cab.first cs (-1) ∧
      prevChain s s.cab.last cs.reverse (-1) ∧
      (chainKeys s cs).Pairwise (· < ·) := by
  obtain ⟨act, fre, hci, hs⟩ := reachableSorted_inv h
  exact ⟨act, hci.fwd, hci.bwd, hs⟩

/-- Witness for C3 after two sorted inserts. -/
theorem sorted_inserts_keys_increasing_witness :
    ∃ cs : List Int,
      nextChain (inserirOrdenado (inserirOrdenado (inicializar 2) ⟨5, "A"⟩)
          ⟨3, "B"⟩)
        (inserirOrdenado (inserirOrdenado (inicializar 2) ⟨5, "A"⟩)
          ⟨3, "B"⟩).cab.first cs (-1) ∧
      prevChain (inserirOrdenado (inserirOrdenado (inicializar 2) ⟨5, "A"⟩)
          ⟨3, "B"⟩)
        (inserirOrdenado (inserirOrdenado (inicializar 2) ⟨5, "A"⟩)
          ⟨3, "B"⟩).cab.last cs.reverse (-1) ∧
      (chainKeys (inserirOrdenado (inserirOrdenado (inicializar 2) ⟨5, "A"⟩)
        ⟨3, "B"⟩) cs).Pairwise (· < ·) :=
  sorted_inserts_keys_increasing
    (ReachableSorted.insOrd ⟨3, "B"⟩
      (ReachableSorted.insOrd ⟨5, "A"⟩
        (ReachableSorted.init 2 (by norm_num))))

/-- C4 (counterexample to the claim as stated): `inicializar 0` is reachable
from a format call, has `count = capacity = 0`, yet its `free` cursor is `1`,
not `-1` — so `free = -1 ↔ count = capacity` fails for capacity `0`. -/
theorem format_zero_free_not_full :
    (inicializar 0).cab.quant = (inicializar 0).cab.tam ∧
    (inicializar 0).cab.free ≠ -1 := by decide

/-- C4 (amended): for capacity at least 1, in every reachable state
`free = -1` exactly when `count = capacity`. -/
theorem free_exhausted_iff_full {s : FS} (h : Reachable s) :
    s.cab.free = -1 ↔ s.cab.quant = s.cab.tam := by
  obtain ⟨act, fre, hci⟩ := reachable_inv h
  have hlen := hci.length_add
  have hq := hci.quant_eq
  have ht := hci.tam_eq
  constructor
  · intro hf
    have hfe : fre = [] := by
      cases fre with
      | nil => rfl
      | cons a t =>
        have ha : s.cab.free = a := hci.fre_ch.1
        have := hci.fre_valid (List.mem_cons_self a t)
        omega
    rw [hfe] at hlen
    simp at hlen
    omega
  · intro hfull
    have hfl : fre.length = 0 := by omega
    have hfe : fre = [] := List.length_eq_zero.mp hfl
    have hch := hci.fre_ch
    rw [hfe] at hch
    exact hch

/-- Witness for C4 (amended) at a full file: one slot, one insert. -/
theorem free_exhausted_iff_full_witness :
    (inserir (inicializar 1) ⟨5, "A"⟩).cab.free = -1 ↔
    (inserir (inicializar 1) ⟨5, "A"⟩).cab.quant =
      (inserir (inicializar 1) ⟨5, "A"⟩).cab.tam :=
  free_exhausted_iff_full
    (Reachable.ins ⟨5, "A"⟩ (Reachable.init 1 (by norm_num)))

/-- C5: a duplicate-key or out-of-space insert (either flavour) returns the
state unchanged, and a `remover` that reports `false` leaves the state
unchanged; in particular running it twice gives the same unchanged state and
`false` again. -/
theorem failed_ops_leave_state_unchanged (s : FS) (d : Dados) (k : Int) :
    (((pesquisa s d.chave).isSome ∨ s.cab.free = -1) →
      inserir s d = s ∧ inserirOrdenado s d = s) ∧
    ((removerRun s k).2 = false →
      (removerRun s k).1 = s ∧
      removerRun (removerRun s k).1 k = (s, false)) := by
  constructor
  · rintro (hdup | hfull)
    · exact ⟨inserir_dup hdup, inserirOrdenado_dup hdup⟩
    · exact ⟨inserir_full hfull, inserirOrdenado_full hfull⟩
  · intro hf
    cases hrem : remover s k with
    | some s1 =>
      rw [removerRun, hrem] at hf
      simp at hf
    | none =>
      refine ⟨?_, ?_⟩ <;> simp [removerRun, hrem]

/-- Witness for C5: duplicate insert of key 5 and double delete of the
absent key 9 on a file holding only key 5. -/
theorem failed_ops_leave_state_unchanged_witness :
    inserir (inserir (inicializar 2) ⟨5, "A"⟩) ⟨5, "B"⟩ =
      inserir (inicializar 2) ⟨5, "A"⟩ ∧
    inserirOrdenado (inserir (inicializar 2) ⟨5, "A"⟩) ⟨5, "B"⟩ =
      inserir (inicializar 2) ⟨5, "A"⟩ ∧
    (removerRun (inserir (inicializar 2) ⟨5, "A"⟩) 9).1 =
      inserir (inicializar 2) ⟨5, "A"⟩ ∧
    removerRun (removerRun (inserir (inicializar 2) ⟨5, "A"⟩) 9).1 9 =
      (inserir (inicializar 2) ⟨5, "A"⟩, false) := by
  have h := failed_ops_leave_state_unchanged
    (inserir (inicializar 2) ⟨5, "A"⟩) ⟨5, "B"⟩ 9
  exact ⟨(h.1 (Or.inl (by decide))).1, (h.1 (Or.inl (by decide))).2,
    (h.2 (by decide)).1, (h.2 (by decide)).2⟩

/-- C6: in a reachable state where key `k` is not active (the search misses)
and the free chain is non-empty, `inserir ⟨k, nm⟩` followed by `pesquisa k`
succeeds, at the freshly used cursor, whose record is exactly `⟨k, nm⟩`. -/
theorem insert_then_search_roundtrip {s : FS} (h : Reachable s) {k : Int}
    {nm : String} (hk : pesquisa s k = none) (hfree : s.cab.free ≠ -1) :
    pesquisa (inserir s ⟨k, nm⟩) k = some s.cab.free ∧
    (readSlot (inserir s ⟨k, nm⟩) s.cab.free).reg = ⟨k, nm⟩ := by
  obtain ⟨act, fre, hci⟩ := reachable_inv h
  obtain ⟨fre', hfre, hinv, hregs, hreg⟩ :=
    @chainInv_inserir s act fre hci ⟨k, nm⟩ hk hfree
  have hks := (pesquisa_eq_none_iff hci).mp hk
  refine ⟨?_, hreg⟩
  show pesquisaAux _ _ _ _ = _
  refine @pesquisaAux_found (inserir s ⟨k, nm⟩) k act [] s.cab.free
    (inserir s ⟨k, nm⟩).cab.first ((inserir s ⟨k, nm⟩).slots.length + 1)
    hinv.fwd (fun y hy => hinv.act_ne_neg hy)
    (by have := hinv.length_add; omega) ?_ ?_
  · intro y hy
    have : (readSlot (inserir s ⟨k, nm⟩) y).reg = (readSlot s y).reg :=
      hregs y hy
    rw [show (readSlot (inserir s ⟨k, nm⟩) y).reg.chave =
      (readSlot s y).reg.chave from congrArg Dados.chave this]
    exact hks y hy
  · rw [show (readSlot (inserir s ⟨k, nm⟩) s.cab.free).reg.chave =
      (Dados.mk k nm).chave from congrArg Dados.chave hreg]

/-- Witness for C6 on a freshly formatted one-slot file. -/
theorem insert_then_search_roundtrip_witness :
    pesquisa (inserir (inicializar 1) ⟨7, "X"⟩) 7 =
      some (inicializar 1).cab.free ∧
    (readSlot (inserir (inicializar 1) ⟨7, "X"⟩)
      (inicializar 1).cab.free).reg = ⟨7, "X"⟩ :=
  insert_then_search_roundtrip (Reachable.init 1 (by norm_num))
    (by decide) (by decide)

/-- C7 (counterexample to the claim as stated): inserting the record
`⟨-1, "A"⟩` — a record value a caller may pass — produces a state whose
single active slot (cursor 1 = `first`, `count = 1`, free chain empty)
carries key `-1`, so an active record can carry the free sentinel. -/
theorem sentinel_key_active_possible :
    (inserir (inicializar 1) ⟨-1, "A"⟩).cab.first = 1 ∧
    (inserir (inicializar 1) ⟨-1, "A"⟩).cab.quant = 1 ∧
    (inserir (inicializar 1) ⟨-1, "A"⟩).cab.free = -1 ∧
    (readSlot (inserir (inicializar 1) ⟨-1, "A"⟩) 1).reg.chave = -1 := by
  decide

/-- C7 (amended): provided no caller ever inserts a record with key `-1`,
in every reachable state a slot in `1..capacity` carries key `-1` exactly
when it lies on the free chain. -/
theorem sentinel_key_iff_free_nz {s : FS} (h : ReachableNZ s) :
    ∃ act fre : List Int, nextChain s s.cab.first act (-1) ∧
      nextChain s s.cab.free fre (-1) ∧
      ∀ c : Int, 1 ≤ c → c ≤ s.cab.tam →
        ((readSlot s c).reg.chave = -1 ↔ c ∈ fre) := by
  obtain ⟨act, fre, hci, hnz⟩ := reachableNZ_inv h
  refine ⟨act, fre, hci.fwd, hci.fre_ch, ?_⟩
  intro c h1 h2
  have hc : c ∈ allCursors s := mem_allCursors.mpr
    ⟨h1, by rw [← hci.tam_eq]; exact h2⟩
  have hmem : c ∈ act ∨ c ∈ fre := by
    have := hci.perm.mem_iff.mpr hc
    simpa using this
  constructor
  · intro hkey
    rcases hmem with ha | hf
    · exact absurd hkey (hnz c ha)
    · exact hf
  · intro hf
    exact hci.fre_keys c hf

/-- Witness for C7 (amended) after one non-sentinel insert. -/
theorem sentinel_key_iff_free_nz_witness :
    ∃ act fre : List Int,
      nextChain (inserir (inicializar 2) ⟨5, "A"⟩)
        (inserir (inicializar 2) ⟨5, "A"⟩).cab.first act (-1) ∧
      nextChain (inserir (inicializar 2) ⟨5, "A"⟩)
        (inserir (inicializar 2) ⟨5, "A"⟩).cab.free fre (-1) ∧
      ∀ c : Int, 1 ≤ c → c ≤ (inserir (inicializar 2) ⟨5, "A"⟩).cab.tam →
        ((readSlot (inserir (inicializar 2) ⟨5, "A"⟩) c).reg.chave = -1 ↔
          c ∈ fre) :=
  sentinel_key_iff_free_nz
    (ReachableNZ.ins ⟨5, "A"⟩ (by decide) (ReachableNZ.init 2 (by norm_num)))

/-- C8: in every reachable state, `count = 0` exactly when both `first` and
`last` are `-1`. -/
theorem count_zero_iff_empty {s : FS} (h : Reachable s) :
    s.cab.quant = 0 ↔ (s.cab.first = -1 ∧ s.cab.last = -1) := by
  obtain ⟨act, fre, hci⟩ := reachable_inv h
  constructor
  · intro hz
    have hae : act = [] := by
      have := hci.quant_eq
      have : act.length = 0 := by omega
      exact List.length_eq_zero.mp this
    subst hae
    exact ⟨hci.fwd, hci.bwd⟩
  · rintro ⟨hf, -⟩
    cases act with
    | nil =>
      have := hci.quant_eq
      simpa using this
    | cons a t =>
      have ha : s.cab.first = a := hci.fwd.1
      have := hci.act_valid (List.mem_cons_self a t)
      omega

/-- Witness for C8 after an insert and a delete (count back to 0). -/
theorem count_zero_iff_empty_witness :
    (inserir (inicializar 2) ⟨5, "A"⟩).cab.quant = 0 ↔
    ((inserir (inicializar 2) ⟨5, "A"⟩).cab.first = -1 ∧
     (inserir (inicializar 2) ⟨5, "A"⟩).cab.last = -1) :=
  count_zero_iff_empty
    (Reachable.ins ⟨5, "A"⟩ (Reachable.init 2 (by norm_num)))

/-- C9: `inicializar 3` produces exactly the header
`{count 0, first -1, last -1, free 1, capacity 3}` and writes slots `1..3`
as free nodes (key `-1`) whose `next` fields chain them `1 → 2 → 3 → -1`. -/
theorem format_three_scenario :
    (inicializar 3).cab = ⟨0, -1, -1, 1, 3⟩ ∧
    (inicializar 3).slots.length = 3 ∧
    (readSlot (inicializar 3) 1).next = 2 ∧
    (readSlot (inicializar 3) 1).reg.chave = -1 ∧
    (readSlot (inicializar 3) 2).next = 3 ∧
    (readSlot (inicializar 3) 2).reg.chave = -1 ∧
    (readSlot (inicializar 3) 3).next = -1 ∧
    (readSlot (inicializar 3) 3).reg.chave = -1 := by
  decide

/-- C10: on any state whose active list is empty (`first = last = -1`) and
whose free chain is non-empty, `inserir` and `inserirOrdenado` produce
identical final file states (same header, same slots). -/
theorem append_eq_sorted_insert_on_empty (s : FS) (d : Dados)
    (hfirst : s.cab.first = -1) (hlast : s.cab.last = -1)
    (hfree : s.cab.free ≠ -1) :
    inserir s d = inserirOrdenado s d := by
  have hdup : pesquisa s d.chave = none := by
    unfold pesquisa
    rw [hfirst]
    simp [pesquisaAux]
  rw [inserir_eq_empty hdup hfree hlast,
      inserirOrdenado_eq_empty hdup hfree hfirst, hlast, if_pos hfirst]

/-- Witness for C10 on a freshly formatted file. -/
theorem append_eq_sorted_insert_on_empty_witness :
    inserir (inicializar 2) ⟨4, "Z"⟩ = inserirOrdenado (inicializar 2) ⟨4, "Z"⟩ :=
  append_eq_sorted_insert_on_empty (inicializar 2) ⟨4, "Z"⟩
    (by decide) (by decide) (by decide)
end BPlusLeaf
